import Mathlib

/-
Verification of the rust-changepoint library against its specification.

The development shallowly embeds the relevant Rust code:

* `src/algo/edm_x/edm_x.rs` - the `Heaps` running-median structure and the
  `edm_x` scan.  The code is generic over `T : Ord + Num + One + Clone`
  (`HeapNum`); we instantiate the embedding at the exact numeric type `ℚ`,
  which satisfies that bundle, so every theorem below is about the generic
  algorithm at an admissible instance.  Rust `BinaryHeap`s are modelled as
  multisets (Lean lists): `push` is `cons`, `peek` returns the extremum,
  `pop` removes one occurrence of the extremum.  `MinHeapItem` reverses the
  order, so the min-heap peek is the smallest element.
* `src/algo/best_candidate.rs` - `BestCandidate` and its total order.
* `src/algo/permutation_test.rs` - the permutation test.  The per-permutation
  scans are pure functions of the shuffled copy and the true statistic; the
  rayon fork-join only fills the `greater_than_truth` slots, and the final
  fold reads them in the original sequential order, so the test is modelled
  as a sequential fold over the list of drawn shuffles.  The random source
  is abstracted as the list of shuffles it produced.
* `src/errors.rs` - the `ErrorKind` taxonomy (the string payload of
  `NaNOrInfiniteFloat` is dropped; `PermutationNeverRan` is referenced by
  `permutation_test.rs`).
* `src/algo/cmp_float.rs` - `NonNaN` and its clipped arithmetic.  IEEE
  doubles are idealised as `F64`: NaN, the two infinities, the negative
  zero, and finite values carried as exact rationals (`F64.num 0` is the
  positive zero).  Arithmetic on finite values is exact, except that a
  result of magnitude above the largest finite double overflows to the
  correspondingly signed infinity, mirroring IEEE overflow.

Rust panics (`unimplemented!`, `expect`) are modelled by returning `none`:
a function of the code that can panic is embedded with an `Option` result.
-/

namespace RustChangepoint

/-! Model of the binary heaps from `src/edm_x/heap.rs`: `listMin` is the
peek of a `MinHeap` (the `MinHeapItem` order is reversed, so the heap yields
the smallest element), `listMax` the peek of a `MaxHeap`. -/

def listMin : List ℚ → Option ℚ
  | [] => none
  | x :: xs => some ((listMin xs).elim x (min x))

def listMax : List ℚ → Option ℚ
  | [] => none
  | x :: xs => some ((listMax xs).elim x (max x))

/-- Pop of a min-heap: remove and return one occurrence of the minimum. -/
def popMin (l : List ℚ) : Option (ℚ × List ℚ) :=
  match listMin l with
  | none => none
  | some m => some (m, l.erase m)

/-- Pop of a max-heap: remove and return one occurrence of the maximum. -/
def popMax (l : List ℚ) : Option (ℚ × List ℚ) :=
  match listMax l with
  | none => none
  | some m => some (m, l.erase m)

/-! The `Heaps` pair from `src/algo/edm_x/edm_x.rs`. -/

inductive HeapSizeInfo where
  | MinHeapBigger
  | MaxHeapBigger
  | EqualSizes
  | Empty
deriving DecidableEq, Repr

inductive HeapItem where
  | MinHeap (t : ℚ)
  | MaxHeap (t : ℚ)
  | FirstPush (t : ℚ)
deriving DecidableEq, Repr

structure Heaps where
  min_heap : List ℚ
  max_heap : List ℚ
  heap_size_info : HeapSizeInfo
deriving DecidableEq, Repr

def Heaps.new : Heaps := ⟨[], [], .Empty⟩

/-- Embedding of `Heaps::push_to_heap`.  The `unimplemented!` branches of the
source (including the two inner `if let ... else` arms) return `none`. -/
def Heaps.push_to_heap (h : Heaps) (push_item : HeapItem) : Option Heaps :=
  match h.heap_size_info, push_item with
  | .Empty, .FirstPush item =>
      some ⟨item :: h.min_heap, item :: h.max_heap, .EqualSizes⟩
  | .EqualSizes, .MinHeap item =>
      some ⟨item :: h.min_heap, h.max_heap, .MinHeapBigger⟩
  | .EqualSizes, .MaxHeap item =>
      some ⟨h.min_heap, item :: h.max_heap, .MaxHeapBigger⟩
  | .MaxHeapBigger, .MinHeap item =>
      some ⟨item :: h.min_heap, h.max_heap, .EqualSizes⟩
  | .MinHeapBigger, .MaxHeap item =>
      some ⟨h.min_heap, item :: h.max_heap, .EqualSizes⟩
  | .MinHeapBigger, .MinHeap item =>
      match popMin (item :: h.min_heap) with
      | some (value, rest) => some ⟨rest, value :: h.max_heap, .EqualSizes⟩
      | none => none
  | .MaxHeapBigger, .MaxHeap item =>
      match popMax (item :: h.max_heap) with
      | some (value, rest) => some ⟨value :: h.min_heap, rest, .EqualSizes⟩
      | none => none
  | _, _ => none

/-- Embedding of `Heaps::add_to_heaps`; the `expect` on the min-heap peek is
the `none` case. -/
def Heaps.add_to_heaps (h : Heaps) (value : ℚ) : Option Heaps :=
  match h.heap_size_info with
  | .Empty => h.push_to_heap (.FirstPush value)
  | _ =>
      match listMin h.min_heap with
      | none => none
      | some top =>
          if value ≤ top then h.push_to_heap (.MaxHeap value)
          else h.push_to_heap (.MinHeap value)

/-- Embedding of `Heaps::get_median`; the `Empty` `unimplemented!` and the
peek `expect`s are the `none` cases. -/
def Heaps.get_median (h : Heaps) : Option ℚ :=
  match h.heap_size_info with
  | .Empty => none
  | .MinHeapBigger => listMin h.min_heap
  | .MaxHeapBigger => listMax h.max_heap
  | .EqualSizes =>
      match listMin h.min_heap, listMax h.max_heap with
      | some min_heap_value, some max_heap_value =>
          some ((min_heap_value + max_heap_value) / (1 + 1))
      | _, _ => none

/-- Push a sequence of values one at a time with `add_to_heaps`. -/
def addAll : Heaps → List ℚ → Option Heaps
  | h, [] => some h
  | h, x :: rest => (h.add_to_heaps x).bind fun h2 => addAll h2 rest

/-- Median reported by a heap pair after pushing `l` into a fresh pair. -/
def medianAfter (l : List ℚ) : Option ℚ :=
  (addAll Heaps.new l).bind Heaps.get_median

/-- Totalised `medianAfter`, used on provably nonempty push sequences. -/
def medianOfPushes (l : List ℚ) : ℚ :=
  (medianAfter l).getD 0

/-- Multiset of values stored in the two heaps, lower half first. -/
def Heaps.stored (h : Heaps) : List ℚ :=
  h.max_heap ++ h.min_heap

/-- Sort-based reference median, following the words of the specification:
the middle element of the sorted arrangement for an odd count, the midpoint
average of the two middle elements for an even count. -/
def sortMedianRef (l : List ℚ) : Option ℚ :=
  let s := List.insertionSort (· ≤ ·) l
  if s.length = 0 then none
  else if s.length % 2 = 1 then s[s.length / 2]?
  else
    match s[s.length / 2 - 1]?, s[s.length / 2]? with
    | some a, some b => some ((a + b) / 2)
    | _, _ => none

/-- Partition invariant of a heap pair: every element of the lower half
(max-heap) is at most every element of the upper half (min-heap). -/
def partitionOk (h : Heaps) : Prop :=
  ∀ x ∈ h.max_heap, ∀ y ∈ h.min_heap, x ≤ y

/-- Size bookkeeping invariant: the balance flag describes the heap sizes,
and the min-heap is nonempty (so its peek in `add_to_heaps` succeeds). -/
def infoOk (h : Heaps) : Prop :=
  match h.heap_size_info with
  | .Empty => False
  | .EqualSizes => h.min_heap.length = h.max_heap.length ∧ h.min_heap ≠ []
  | .MinHeapBigger => h.min_heap.length = h.max_heap.length + 1
  | .MaxHeapBigger => h.max_heap.length = h.min_heap.length + 1 ∧ h.min_heap ≠ []

/-- Invariant of a heap pair that has received at least one push. -/
def HeapsInv (h : Heaps) : Prop :=
  partitionOk h ∧ infoOk h

/-! BestCandidate, from `src/algo/best_candidate.rs`. -/

structure BestCandidate where
  statistic : ℚ
  location : ℕ
deriving DecidableEq, Repr

/-- Embedding of the `Ord` instance of `BestCandidate`: primarily by
statistic; on equal statistics the location comparison is reversed. -/
def bcCmp (a b : BestCandidate) : Ordering :=
  match compare a.statistic b.statistic with
  | .eq => (compare a.location b.location).swap
  | o => o

/-- Rust `Iterator::max` on `BestCandidate`s: the later element wins ties.
Returns `none` exactly on the empty list. -/
def rustMaxBC (l : List BestCandidate) : Option BestCandidate :=
  l.foldl
    (fun acc x =>
      some (match acc with
            | none => x
            | some m => if bcCmp m x = .gt then m else x))
    none

/-- Binary step of `rustMaxBC`: the later operand wins ties. -/
def bcMax2 (m x : BestCandidate) : BestCandidate :=
  if bcCmp m x = .gt then m else x

/-- Combination of the maxima of two adjacent sublists. -/
def omaxBC : Option BestCandidate → Option BestCandidate → Option BestCandidate
  | none, b => b
  | some a, none => some a
  | some a, some b => some (bcMax2 a b)

/-! The EDM-X scan, from `src/algo/edm_x/edm_x.rs`. -/

/-- Embedding of the `scan`/`filter_map` pipeline inside `inner_edm_x_loop`:
the list of candidates the inner scan emits, streaming `zs` with running
index `jmi` and right-heap state `right_heaps`.  A heap panic is `none`. -/
def innerScan (left_median : ℚ) (delta i : ℕ) :
    ℕ → Heaps → List ℚ → Option (List BestCandidate)
  | _, _, [] => some []
  | jmi, right_heaps, x :: rest =>
      (right_heaps.add_to_heaps x).bind fun rh =>
        (innerScan left_median delta i (jmi + 1) rh rest).bind fun tail =>
          if jmi < delta then some tail
          else
            (rh.get_median).bind fun right_median =>
              let median_diff := left_median - right_median
              let j := jmi + i
              let stat_weight : ℚ := ((i : ℚ) * ((j : ℚ) - (i : ℚ))) / (j : ℚ)
              some (⟨stat_weight * (median_diff * median_diff), i⟩ :: tail)

/-- Embedding of `inner_edm_x_loop`: maximum of the emitted candidates; the
final `expect` (empty candidate list) is the `none` case of `rustMaxBC`. -/
def inner_edm_x_loop (left_median : ℚ) (delta : ℕ) (z_from_i : List ℚ)
    (i : ℕ) : Option BestCandidate :=
  (innerScan left_median delta i 0 Heaps.new z_from_i).bind rustMaxBC

/-- Embedding of the outer `scan`/`filter_map` pipeline of `edm_x`: the list
of inner-loop maxima, streaming `zs = z.take (z.length - delta)` with running
index `i` and left-heap state `left_heaps`. -/
def outerScan (z : List ℚ) (delta : ℕ) :
    ℕ → Heaps → List ℚ → Option (List BestCandidate)
  | _, _, [] => some []
  | i, left_heaps, x :: rest =>
      (left_heaps.add_to_heaps x).bind fun lh =>
        (outerScan z delta (i + 1) lh rest).bind fun tail =>
          if i < delta then some tail
          else
            (lh.get_median).bind fun left_median =>
              (inner_edm_x_loop left_median delta (z.drop i) i).bind fun c =>
                some (c :: tail)

/-- Embedding of `edm_x`. -/
def edm_x (z : List ℚ) (delta : ℕ) : Option BestCandidate :=
  (outerScan z delta 0 Heaps.new (z.take (z.length - delta))).bind rustMaxBC

/-- The error taxonomy of `src/errors.rs` (plus `PermutationNeverRan`, which
`src/algo/permutation_test.rs` refers to).  There is no variant wrapping an
inner detector failure. -/
inductive ErrorKind where
  | NaNOrInfiniteFloat
  | NotEnoughValues (collection_len : ℕ) (delta : ℕ)
  | PermutationNeverRan
deriving DecidableEq, Repr

/-- Embedding of `EDMX::find_candidate` for `EDMX { delta }`: the length
check, then the scan.  The outer `none` marks a panic inside `edm_x`. -/
def find_candidate (delta : ℕ) (observations : List ℚ) :
    Option (Except ErrorKind BestCandidate) :=
  if observations.length < delta * 2 then
    some (.error (.NotEnoughValues observations.length delta))
  else (edm_x observations delta).map .ok

/-! Specification-side description of the scan, used to state claims about
which pairs are scored and with what statistic. -/

/-- Weight of the pair `(i, j)` as the specification words it. -/
def specWeight (i j : ℕ) : ℚ :=
  ((i : ℚ) * ((j : ℚ) - (i : ℚ))) / (j : ℚ)

/-- Candidate the specification describes for the pair `(i, j)`: weighted
squared difference of the two heap medians, recorded at location `i`. -/
def specCand (z : List ℚ) (i j : ℕ) : BestCandidate :=
  let lm := medianOfPushes (z.take (i + 1))
  let rm := medianOfPushes ((z.drop i).take (j - i + 1))
  ⟨specWeight i j * ((lm - rm) * (lm - rm)), i⟩

/-- Inner indices scored for a fixed `i`: all `j` with `i + delta ≤ j ≤ n - 1`. -/
def jRange (n delta i : ℕ) : List ℕ :=
  List.range' (i + delta) (n - (i + delta))

/-- Outer indices scored: all `i` with `delta ≤ i < n - delta`. -/
def iRange (n delta : ℕ) : List ℕ :=
  List.range' delta (n - 2 * delta)

/-- All candidates the specification says the scan scores, in scan order. -/
def specAllCands (z : List ℚ) (delta : ℕ) : List BestCandidate :=
  ((iRange z.length delta).map
    (fun i => (jRange z.length delta i).map (specCand z i))).flatten

/-- Best candidate of the inner scan at outer boundary `i`, as described by
the specification: the maximum (later index winning ties) over the scored
inner indices. -/
def innerBest (z : List ℚ) (delta i : ℕ) : BestCandidate :=
  (rustMaxBC ((jRange z.length delta i).map (specCand z i))).getD ⟨0, 0⟩

/-- The inner scan as run by `edm_x` at outer boundary `i`: left median from
pushing `z.take (i+1)` into the left pair, fresh right pair on `z.drop i`. -/
def innerScanAt (z : List ℚ) (delta i : ℕ) : Option (List BestCandidate) :=
  (addAll Heaps.new (z.take (i + 1))).bind fun lh =>
    (lh.get_median).bind fun lm =>
      innerScan lm delta i 0 Heaps.new (z.drop i)

/-! The permutation test, from `src/algo/permutation_test.rs`. -/

structure PermutationTestResult where
  p_value : ℚ
  changepoint_index : ℕ
deriving DecidableEq, Repr

/-- Embedding of `run_algorithm_on_permutation`: `0` if the statistic of the
permutation ties or falls below the true statistic, else `1`; a detector
error propagates. -/
def run_algorithm_on_permutation
    (detector : List ℚ → Except ErrorKind BestCandidate)
    (true_statistic : ℚ) (permutation : List ℚ) : Except ErrorKind ℚ :=
  (detector permutation).bind fun bc =>
    if bc.statistic ≤ true_statistic then .ok 0 else .ok 1

/-- Embedding of `permutation_test`.  The detector and the shuffles drawn
from the random source are abstracted as arguments; every per-permutation
scan is a pure function of its shuffle, the fork-join only fills the
`greater_than_truth` slots (so `PermutationNeverRan` is unreachable), and
the final fold reads them in the original order. -/
def permutation_test (algorithm : List ℚ → Except ErrorKind BestCandidate)
    (permutations : List (List ℚ)) (observations : List ℚ) :
    Except ErrorKind PermutationTestResult :=
  match algorithm observations with
  | .error e => .error e
  | .ok bc =>
      let results := permutations.map
        (run_algorithm_on_permutation algorithm bc.statistic)
      match results.foldl
          (fun (acc : Except ErrorKind ℚ) r =>
            acc.bind fun a => r.bind fun q => .ok (a + q))
          (.ok (0 : ℚ)) with
      | .error e => .error e
      | .ok num_failures =>
          .ok ⟨num_failures / ((permutations.length : ℚ) + 1), bc.location⟩

/-- Count of permutations whose detector statistic strictly exceeds the true
statistic, as the specification words it. -/
def countGreater (algorithm : List ℚ → Except ErrorKind BestCandidate)
    (true_statistic : ℚ) (permutations : List (List ℚ)) : ℕ :=
  permutations.countP fun p =>
    match algorithm p with
    | .ok b => decide (true_statistic < b.statistic)
    | .error _ => false

/-- Detector that always returns the candidate `(0, 0)`; used as a concrete
instance of the detector abstraction. -/
def constDetector : List ℚ → Except ErrorKind BestCandidate :=
  fun _ => .ok ⟨0, 0⟩

/-- Detector that fails on the reversed pair `[2, 1]` with a
`NotEnoughValues 7 9` error and succeeds elsewhere; used as a concrete
instance exercising a failing permutation scan. -/
def failOnSwapDetector : List ℚ → Except ErrorKind BestCandidate :=
  fun l => if l = [(2 : ℚ), 1] then .error (.NotEnoughValues 7 9) else .ok ⟨0, 0⟩

/-! Idealised IEEE double model for `src/algo/cmp_float.rs`: NaN, the two
infinities, the negative zero, and finite values carried as exact rationals
(`num 0` is the positive zero).  Finite arithmetic is exact except that a
result of magnitude beyond the largest finite double overflows to the
correspondingly signed infinity. -/

inductive F64 where
  | nan
  | inf
  | negInf
  | negZero
  | num (q : ℚ)
deriving DecidableEq, Repr

/-- Largest finite double, `f64::MAX = (2^53 - 1) * 2^971`. -/
def maxFiniteVal : ℚ := (2 ^ 53 - 1) * 2 ^ 971

/-- Smallest positive normal double, `Float::min_positive_value() = 2^(-1022)`. -/
def minPositiveVal : ℚ := 1 / 2 ^ 1022

def F64.is_nan : F64 → Bool
  | .nan => true
  | _ => false

def F64.is_infinite : F64 → Bool
  | .inf => true
  | .negInf => true
  | _ => false

/-- Sign bit is clear: positive for `inf` and `+0`, negative for `negInf`,
`-0` and negative numbers. -/
def F64.is_sign_positive : F64 → Bool
  | .nan => true
  | .inf => true
  | .negInf => false
  | .negZero => false
  | .num q => decide (0 ≤ q)

def F64.signBitNeg (v : F64) : Bool := !v.is_sign_positive

/-- IEEE comparison with zero (`-0.0 == 0.0` is true). -/
def F64.isZeroF : F64 → Bool
  | .negZero => true
  | .num q => decide (q = 0)
  | _ => false

/-- Exact value of a finite double (`0` for the special values). -/
def F64.toRat : F64 → ℚ
  | .num q => q
  | _ => 0

def F64.isFiniteVal : F64 → Bool
  | .negZero => true
  | .num _ => true
  | _ => false

/-- Finite IEEE result from an exact value: overflow beyond the largest
finite double gives the signed infinity; an exact zero takes the given sign. -/
def mkFinite (q : ℚ) (zeroNeg : Bool) : F64 :=
  if q > maxFiniteVal then .inf
  else if q < -maxFiniteVal then .negInf
  else if q = 0 then (if zeroNeg then .negZero else .num 0)
  else .num q

def F64.add : F64 → F64 → F64
  | .nan, _ => .nan
  | _, .nan => .nan
  | .inf, .negInf => .nan
  | .negInf, .inf => .nan
  | .inf, _ => .inf
  | _, .inf => .inf
  | .negInf, _ => .negInf
  | _, .negInf => .negInf
  | .negZero, .negZero => .negZero
  | .negZero, .num b => .num b
  | .num a, .negZero => .num a
  | .num a, .num b => mkFinite (a + b) false

def F64.neg : F64 → F64
  | .nan => .nan
  | .inf => .negInf
  | .negInf => .inf
  | .negZero => .num 0
  | .num q => if q = 0 then .negZero else .num (-q)

def F64.mul (x y : F64) : F64 :=
  if x.is_nan || y.is_nan then .nan
  else if (x.is_infinite && y.isZeroF) || (y.is_infinite && x.isZeroF) then .nan
  else
    let s := x.signBitNeg != y.signBitNeg
    if x.is_infinite || y.is_infinite then (if s then .negInf else .inf)
    else
      let m := |x.toRat| * |y.toRat|
      if m = 0 then (if s then .negZero else .num 0)
      else mkFinite (if s then -m else m) s

def F64.div (x y : F64) : F64 :=
  if x.is_nan || y.is_nan then .nan
  else if x.is_infinite && y.is_infinite then .nan
  else if x.isZeroF && y.isZeroF then .nan
  else
    let s := x.signBitNeg != y.signBitNeg
    if x.is_infinite then (if s then .negInf else .inf)
    else if y.is_infinite then (if s then .negZero else .num 0)
    else if y.isZeroF then (if s then .negInf else .inf)
    else
      let m := |x.toRat| / |y.toRat|
      if m = 0 then (if s then .negZero else .num 0)
      else mkFinite (if s then -m else m) s

/-- Truncation toward zero, as in the IEEE remainder used by Rust `%`. -/
def ratTrunc (q : ℚ) : ℤ := q.num / (q.den : ℤ)

/-- Rust `%` on doubles: remainder with the sign of the dividend, computed
as `a - b * trunc (a / b)`; a zero result keeps the sign of the dividend. -/
def F64.rem (x y : F64) : F64 :=
  if x.is_nan || y.is_nan then .nan
  else if x.is_infinite then .nan
  else if y.isZeroF then .nan
  else if y.is_infinite then x
  else if x.isZeroF then x
  else
    let a := x.toRat
    let b := y.toRat
    let r := a - b * (ratTrunc (a / b) : ℚ)
    if r = 0 then (if x.signBitNeg then .negZero else .num 0)
    else .num r

/-- The `NonNaN` wrapper of `src/algo/cmp_float.rs`: a double that is
neither NaN nor infinite. -/
def NonNaN := { v : F64 // v.isFiniteVal = true }
deriving DecidableEq

/-- Embedding of `NonNaN::new`. -/
def NonNaN.new (value : F64) : Option NonNaN :=
  if h : value.is_nan = true ∨ value.is_infinite = true then none
  else
    some ⟨value, by
      cases value <;>
        simp_all [F64.is_nan, F64.is_infinite, F64.isFiniteVal]⟩

/-- Embedding of `NonNaN::value`. -/
def NonNaN.value (x : NonNaN) : F64 := x.val

/-- Embedding of `clip_to_finite`: an infinite raw result is replaced by the
signed extreme finite value; the `expect` (raw NaN) is the `none` case. -/
def clip_to_finite (raw_result : F64) : Option NonNaN :=
  NonNaN.new
    (if raw_result.is_infinite then
      (if raw_result.is_sign_positive then .num maxFiniteVal
       else .num (-maxFiniteVal))
     else raw_result)

/-- Embedding of `as_divisor`: a divisor equal to zero is replaced by the
smallest positive normal double carrying the sign of the divisor. -/
def as_divisor (candidate : F64) : F64 :=
  if candidate.isZeroF then
    F64.mul (.num minPositiveVal)
      (if candidate.is_sign_positive then .num 1 else .num (-1))
  else candidate

/-- Embedding of `Add for NonNaN`. -/
def nnAdd (x y : NonNaN) : Option NonNaN :=
  clip_to_finite (F64.add x.val y.val)

/-- Embedding of `Sub for NonNaN`: addition of the negated operand; the
inner `expect` on the negation is the `none` case of the bind. -/
def nnSub (x y : NonNaN) : Option NonNaN :=
  (NonNaN.new (F64.neg y.val)).bind fun negated_other => nnAdd x negated_other

/-- Embedding of `Mul for NonNaN`. -/
def nnMul (x y : NonNaN) : Option NonNaN :=
  clip_to_finite (F64.mul x.val y.val)

/-- Embedding of `Div for NonNaN`. -/
def nnDiv (x y : NonNaN) : Option NonNaN :=
  clip_to_finite (F64.div x.val (as_divisor y.val))

/-- Embedding of `Rem for NonNaN`. -/
def nnRem (x y : NonNaN) : Option NonNaN :=
  clip_to_finite (F64.rem x.val (as_divisor y.val))

/-! Theory of the heap peeks. -/

theorem listMin_nil : listMin [] = none := rfl

theorem listMin_cons (x : ℚ) (xs : List ℚ) :
    listMin (x :: xs) = some ((listMin xs).elim x (min x)) := rfl

theorem listMax_nil : listMax [] = none := rfl

theorem listMax_cons (x : ℚ) (xs : List ℚ) :
    listMax (x :: xs) = some ((listMax xs).elim x (max x)) := rfl

theorem listMin_eq_none_iff (l : List ℚ) : listMin l = none ↔ l = [] := by
  cases l with
  | nil => simp [listMin_nil]
  | cons x xs => simp [listMin_cons]

theorem listMax_eq_none_iff (l : List ℚ) : listMax l = none ↔ l = [] := by
  cases l with
  | nil => simp [listMax_nil]
  | cons x xs => simp [listMax_cons]

theorem listMin_mem_le {l : List ℚ} {m : ℚ} (h : listMin l = some m) :
    m ∈ l ∧ ∀ y ∈ l, m ≤ y := by
  induction l generalizing m with
  | nil => simp [listMin_nil] at h
  | cons x xs ih =>
      rw [listMin_cons] at h
      cases hxs : listMin xs with
      | none =>
          rw [hxs] at h
          have hnil : xs = [] := (listMin_eq_none_iff xs).mp hxs
          simp [Option.elim] at h
          subst hnil
          simp [← h]
      | some mx =>
          rw [hxs] at h
          simp [Option.elim] at h
          obtain ⟨hmem, hle⟩ := ih hxs
          subst h
          constructor
          · rcases min_cases x mx with ⟨heq, _⟩ | ⟨heq, _⟩
            · rw [heq]; exact List.mem_cons_self x xs
            · rw [heq]; exact List.mem_cons_of_mem x hmem
          · intro y hy
            rcases List.mem_cons.mp hy with rfl | hy
            · exact min_le_left _ _
            · exact le_trans (min_le_right x mx) (hle y hy)

theorem listMax_mem_ge {l : List ℚ} {m : ℚ} (h : listMax l = some m) :
    m ∈ l ∧ ∀ y ∈ l, y ≤ m := by
  induction l generalizing m with
  | nil => simp [listMax_nil] at h
  | cons x xs ih =>
      rw [listMax_cons] at h
      cases hxs : listMax xs with
      | none =>
          rw [hxs] at h
          have hnil : xs = [] := (listMax_eq_none_iff xs).mp hxs
          simp [Option.elim] at h
          subst hnil
          simp [← h]
      | some mx =>
          rw [hxs] at h
          simp [Option.elim] at h
          obtain ⟨hmem, hle⟩ := ih hxs
          subst h
          constructor
          · rcases max_cases x mx with ⟨heq, _⟩ | ⟨heq, _⟩
            · rw [heq]; exact List.mem_cons_self x xs
            · rw [heq]; exact List.mem_cons_of_mem x hmem
          · intro y hy
            rcases List.mem_cons.mp hy with rfl | hy
            · exact le_max_left _ _
            · exact le_trans (hle y hy) (le_max_right x mx)

theorem listMin_eq_some_iff {l : List ℚ} {m : ℚ} :
    listMin l = some m ↔ m ∈ l ∧ ∀ y ∈ l, m ≤ y := by
  constructor
  · exact listMin_mem_le
  · rintro ⟨hmem, hle⟩
    cases hl : listMin l with
    | none =>
        rw [(listMin_eq_none_iff l).mp hl] at hmem
        simp at hmem
    | some m2 =>
        obtain ⟨hmem2, hle2⟩ := listMin_mem_le hl
        have : m = m2 := le_antisymm (hle m2 hmem2) (hle2 m hmem)
        rw [this]

theorem listMax_eq_some_iff {l : List ℚ} {m : ℚ} :
    listMax l = some m ↔ m ∈ l ∧ ∀ y ∈ l, y ≤ m := by
  constructor
  · exact listMax_mem_ge
  · rintro ⟨hmem, hle⟩
    cases hl : listMax l with
    | none =>
        rw [(listMax_eq_none_iff l).mp hl] at hmem
        simp at hmem
    | some m2 =>
        obtain ⟨hmem2, hle2⟩ := listMax_mem_ge hl
        have : m = m2 := le_antisymm (hle2 m hmem) (hle m2 hmem2)
        rw [this]

theorem listMin_perm {l l' : List ℚ} (h : List.Perm l l') :
    listMin l = listMin l' := by
  cases hl : listMin l with
  | none =>
      rw [(listMin_eq_none_iff l).mp hl] at h
      rw [(listMin_eq_none_iff l').mpr (h.nil_eq.symm)]
  | some m =>
      obtain ⟨hmem, hle⟩ := listMin_mem_le hl
      exact (listMin_eq_some_iff.mpr
        ⟨h.mem_iff.mp hmem, fun y hy => hle y (h.mem_iff.mpr hy)⟩).symm

theorem listMax_perm {l l' : List ℚ} (h : List.Perm l l') :
    listMax l = listMax l' := by
  cases hl : listMax l with
  | none =>
      rw [(listMax_eq_none_iff l).mp hl] at h
      rw [(listMax_eq_none_iff l').mpr (h.nil_eq.symm)]
  | some m =>
      obtain ⟨hmem, hle⟩ := listMax_mem_ge hl
      exact (listMax_eq_some_iff.mpr
        ⟨h.mem_iff.mp hmem, fun y hy => hle y (h.mem_iff.mpr hy)⟩).symm

theorem popMin_of_cons (x : ℚ) (xs : List ℚ) :
    ∃ m rest, popMin (x :: xs) = some (m, rest) ∧
      listMin (x :: xs) = some m ∧
      List.Perm (x :: xs) (m :: rest) ∧ rest.length = xs.length := by
  cases hl : listMin (x :: xs) with
  | none => simp [listMin_eq_none_iff] at hl
  | some m =>
      obtain ⟨hmem, _⟩ := listMin_mem_le hl
      refine ⟨m, (x :: xs).erase m, ?_, rfl, List.perm_cons_erase hmem, ?_⟩
      · simp [popMin, hl]
      · have := List.length_erase_of_mem hmem
        simp at this
        simp [this]

theorem popMax_of_cons (x : ℚ) (xs : List ℚ) :
    ∃ m rest, popMax (x :: xs) = some (m, rest) ∧
      listMax (x :: xs) = some m ∧
      List.Perm (x :: xs) (m :: rest) ∧ rest.length = xs.length := by
  cases hl : listMax (x :: xs) with
  | none => simp [listMax_eq_none_iff] at hl
  | some m =>
      obtain ⟨hmem, _⟩ := listMax_mem_ge hl
      refine ⟨m, (x :: xs).erase m, ?_, rfl, List.perm_cons_erase hmem, ?_⟩
      · simp [popMax, hl]
      · have := List.length_erase_of_mem hmem
        simp at this
        simp [this]

/-! The heap-pair invariant is preserved by every push, the push never
panics, and the stored multiset grows by exactly the pushed value. -/

theorem add_to_heaps_step {h : Heaps} (hinv : HeapsInv h) (v : ℚ) :
    ∃ h2, h.add_to_heaps v = some h2 ∧ HeapsInv h2 ∧
      List.Perm h2.stored (v :: h.stored) := by
  obtain ⟨hpart, hinfo⟩ := hinv
  obtain ⟨mn, mx, info⟩ := h
  cases info with
  | Empty => simp [infoOk] at hinfo
  | EqualSizes =>
      simp only [infoOk] at hinfo
      obtain ⟨hlen, hne⟩ := hinfo
      cases htop : listMin mn with
      | none => exact absurd ((listMin_eq_none_iff mn).mp htop) hne
      | some top =>
          obtain ⟨htopmem, htople⟩ := listMin_mem_le htop
          by_cases hv : v ≤ top
          · refine ⟨⟨mn, v :: mx, .MaxHeapBigger⟩, ?_, ⟨?_, ?_⟩, ?_⟩
            · simp [Heaps.add_to_heaps, Heaps.push_to_heap, htop, hv]
            · intro x hx y hy
              rcases List.mem_cons.mp hx with rfl | hx
              · exact le_trans hv (htople y hy)
              · exact hpart x hx y hy
            · simpa [infoOk] using ⟨hlen.symm, hne⟩
            · simp [Heaps.stored]
          · refine ⟨⟨v :: mn, mx, .MinHeapBigger⟩, ?_, ⟨?_, ?_⟩, ?_⟩
            · simp [Heaps.add_to_heaps, Heaps.push_to_heap, htop, hv]
            · intro x hx y hy
              rcases List.mem_cons.mp hy with rfl | hy
              · exact le_of_lt (lt_of_le_of_lt (hpart x hx top htopmem)
                  (lt_of_not_le hv))
              · exact hpart x hx y hy
            · simpa [infoOk] using hlen
            · simp [Heaps.stored]
  | MinHeapBigger =>
      simp only [infoOk] at hinfo
      have hne : mn ≠ [] := by
        intro hnil
        rw [hnil] at hinfo
        simp at hinfo
      cases htop : listMin mn with
      | none => exact absurd ((listMin_eq_none_iff mn).mp htop) hne
      | some top =>
          obtain ⟨htopmem, htople⟩ := listMin_mem_le htop
          by_cases hv : v ≤ top
          · refine ⟨⟨mn, v :: mx, .EqualSizes⟩, ?_, ⟨?_, ?_⟩, ?_⟩
            · simp [Heaps.add_to_heaps, Heaps.push_to_heap, htop, hv]
            · intro x hx y hy
              rcases List.mem_cons.mp hx with rfl | hx
              · exact le_trans hv (htople y hy)
              · exact hpart x hx y hy
            · simpa [infoOk] using ⟨by simpa using hinfo, hne⟩
            · simp [Heaps.stored]
          · obtain ⟨mn', rst', hmn'⟩ := List.exists_cons_of_ne_nil hne
            subst hmn'
            obtain ⟨m, rest, hpop, hmin, hperm2, hlen2⟩ :=
              popMin_of_cons v (mn' :: rst')
            obtain ⟨hmmem, hmle⟩ := listMin_mem_le hmin
            refine ⟨⟨rest, m :: mx, .EqualSizes⟩, ?_, ⟨?_, ?_⟩, ?_⟩
            · simp only [Heaps.add_to_heaps, Heaps.push_to_heap, htop, hv,
                if_false, hpop]
            · intro x hx y hy
              have hyfull : y ∈ v :: mn' :: rst' :=
                hperm2.mem_iff.mpr (List.mem_cons_of_mem m hy)
              rcases List.mem_cons.mp hx with rfl | hx
              · exact hmle y hyfull
              · rcases List.mem_cons.mp hyfull with rfl | hyin
                · exact le_of_lt (lt_of_le_of_lt (hpart x hx top htopmem)
                    (lt_of_not_le hv))
                · exact hpart x hx y hyin
            · constructor
              · simpa using hlen2.trans (by simpa using hinfo)
              · intro hnil
                simp only at hnil
                rw [hnil] at hlen2
                simp at hlen2
            · show List.Perm ((m :: mx) ++ rest) (v :: (mx ++ mn' :: rst'))
              have p1 : List.Perm (m :: (mx ++ rest)) (mx ++ (m :: rest)) :=
                List.perm_middle.symm
              have p2 : List.Perm (mx ++ (m :: rest)) (mx ++ (v :: mn' :: rst')) :=
                List.Perm.append_left mx hperm2.symm
              have p3 : List.Perm (mx ++ (v :: mn' :: rst'))
                  (v :: (mx ++ mn' :: rst')) := List.perm_middle
              simpa using (p1.trans p2).trans p3
  | MaxHeapBigger =>
      simp only [infoOk] at hinfo
      obtain ⟨hlen, hne⟩ := hinfo
      cases htop : listMin mn with
      | none => exact absurd ((listMin_eq_none_iff mn).mp htop) hne
      | some top =>
          obtain ⟨htopmem, htople⟩ := listMin_mem_le htop
          by_cases hv : v ≤ top
          · obtain ⟨m, rest, hpop, hmax, hperm2, hlen2⟩ :=
              popMax_of_cons v mx
            obtain ⟨hmmem, hmge⟩ := listMax_mem_ge hmax
            refine ⟨⟨m :: mn, rest, .EqualSizes⟩, ?_, ⟨?_, ?_⟩, ?_⟩
            · simp only [Heaps.add_to_heaps, Heaps.push_to_heap, htop, hv,
                if_true, hpop]
            · intro x hx y hy
              have hxfull : x ∈ v :: mx :=
                hperm2.mem_iff.mpr (List.mem_cons_of_mem m hx)
              rcases List.mem_cons.mp hy with rfl | hy
              · exact hmge x hxfull
              · rcases List.mem_cons.mp hxfull with rfl | hxin
                · exact le_trans hv (htople y hy)
                · exact hpart x hxin y hy
            · constructor
              · simp only [List.length_cons]
                rw [hlen2, hlen]
              · simp
            · show List.Perm (rest ++ (m :: mn)) (v :: (mx ++ mn))
              have p1 : List.Perm (rest ++ (m :: mn)) (m :: (rest ++ mn)) :=
                List.perm_middle
              have p2 : List.Perm ((m :: rest) ++ mn) ((v :: mx) ++ mn) :=
                List.Perm.append_right mn hperm2.symm
              simpa using p1.trans p2
          · refine ⟨⟨v :: mn, mx, .EqualSizes⟩, ?_, ⟨?_, ?_⟩, ?_⟩
            · simp [Heaps.add_to_heaps, Heaps.push_to_heap, htop, hv]
            · intro x hx y hy
              rcases List.mem_cons.mp hy with rfl | hy
              · exact le_of_lt (lt_of_le_of_lt (hpart x hx top htopmem)
                  (lt_of_not_le hv))
              · exact hpart x hx y hy
            · simpa [infoOk] using hlen.symm
            · simp [Heaps.stored]


theorem sorted_listMin_eq {l : List ℚ} (hs : l.Sorted (· ≤ ·)) :
    listMin l = l[0]? := by
  cases l with
  | nil => rfl
  | cons x xs =>
      rw [List.sorted_cons] at hs
      obtain ⟨hx, _⟩ := hs
      rw [listMin_cons]
      cases hxs : listMin xs with
      | none => simp [Option.elim]
      | some m =>
          obtain ⟨hmem, _⟩ := listMin_mem_le hxs
          simp [Option.elim, min_eq_left (hx m hmem)]

theorem sorted_listMax_eq {l : List ℚ} (hs : l.Sorted (· ≤ ·)) :
    listMax l = l[l.length - 1]? := by
  induction l with
  | nil => rfl
  | cons x xs ih =>
      rw [List.sorted_cons] at hs
      obtain ⟨hx, hxs⟩ := hs
      cases xs with
      | nil => simp [listMax_cons, listMax_nil, Option.elim]
      | cons y ys =>
          rw [listMax_cons]
          cases hm : listMax (y :: ys) with
          | none => simp [listMax_eq_none_iff] at hm
          | some m =>
              obtain ⟨hmem, _⟩ := listMax_mem_ge hm
              have hxm : x ≤ m := hx m hmem
              have hidx : (y :: ys)[ys.length]? = some m := by
                have h1 := ih hxs
                rw [hm] at h1
                simpa using h1.symm
              simp only [Option.elim, max_eq_right hxm, List.length_cons]
              have h2 : ys.length + 1 + 1 - 1 = ys.length + 1 := by omega
              rw [h2, List.getElem?_cons_succ]
              exact hidx.symm

/-- Pushing a whole list never panics, preserves the invariant, and adds
the pushed values to the stored multiset. -/
theorem addAll_inv (l : List ℚ) {h : Heaps} (hinv : HeapsInv h) :
    ∃ h2, addAll h l = some h2 ∧ HeapsInv h2 ∧
      List.Perm h2.stored (l ++ h.stored) := by
  induction l generalizing h with
  | nil => exact ⟨h, rfl, hinv, by simp⟩
  | cons x rest ih =>
      obtain ⟨h1, hstep, hinv1, hperm1⟩ := add_to_heaps_step hinv x
      obtain ⟨h2, hall, hinv2, hperm2⟩ := ih hinv1
      refine ⟨h2, ?_, hinv2, ?_⟩
      · simp [addAll, hstep, hall]
      · have hmid : List.Perm h2.stored (rest ++ (x :: h.stored)) :=
          hperm2.trans (List.Perm.append_left rest hperm1)
        exact hmid.trans List.perm_middle

theorem heapsInv_first (v : ℚ) :
    HeapsInv ⟨[v], [v], .EqualSizes⟩ := by
  refine ⟨?_, ?_⟩
  · intro x hx y hy
    simp at hx hy
    simp [hx, hy]
  · simp [infoOk]

/-- Pushing a nonempty sequence into a fresh pair never panics, establishes
the invariant, and stores the pushed values with the first one duplicated. -/
theorem addAll_new_inv (v : ℚ) (rest : List ℚ) :
    ∃ h2, addAll Heaps.new (v :: rest) = some h2 ∧ HeapsInv h2 ∧
      List.Perm h2.stored (v :: v :: rest) := by
  have hfirst : Heaps.new.add_to_heaps v = some ⟨[v], [v], .EqualSizes⟩ := rfl
  obtain ⟨h2, hall, hinv2, hperm2⟩ := addAll_inv rest (heapsInv_first v)
  refine ⟨h2, ?_, hinv2, ?_⟩
  · simp [addAll, hfirst, hall]
  · have hst : Heaps.stored ⟨[v], [v], .EqualSizes⟩ = [v, v] := rfl
    rw [hst] at hperm2
    refine hperm2.trans ?_
    have hcomm : List.Perm (rest ++ [v, v]) ([v, v] ++ rest) :=
      List.perm_append_comm
    simpa using hcomm

/-- The reported median of an invariant-satisfying heap pair is the
sort-based median of the stored multiset. -/
theorem get_median_inv {h : Heaps} (hinv : HeapsInv h) :
    h.get_median = sortMedianRef h.stored := by
  obtain ⟨hpart, hinfo⟩ := hinv
  obtain ⟨mn, mx, info⟩ := h
  simp only [Heaps.stored] at *
  set A := List.insertionSort (· ≤ ·) mx with hA
  set B := List.insertionSort (· ≤ ·) mn with hB
  have hAperm : List.Perm A mx := List.perm_insertionSort _ mx
  have hBperm : List.Perm B mn := List.perm_insertionSort _ mn
  have hAsorted : A.Sorted (· ≤ ·) := List.sorted_insertionSort _ mx
  have hBsorted : B.Sorted (· ≤ ·) := List.sorted_insertionSort _ mn
  have hABsorted : (A ++ B).Sorted (· ≤ ·) := by
    rw [List.Sorted, List.pairwise_append]
    exact ⟨hAsorted, hBsorted, fun x hx y hy =>
      hpart x (hAperm.mem_iff.mp hx) y (hBperm.mem_iff.mp hy)⟩
  have hsortEq : List.insertionSort (· ≤ ·) (mx ++ mn) = A ++ B := by
    refine List.eq_of_perm_of_sorted ?_
      (List.sorted_insertionSort _ (mx ++ mn)) hABsorted
    exact (List.perm_insertionSort _ (mx ++ mn)).trans
      ((hAperm.append hBperm).symm)
  have hAlen : A.length = mx.length := List.length_insertionSort _ mx
  have hBlen : B.length = mn.length := List.length_insertionSort _ mn
  have hAmax : listMax mx = A[A.length - 1]? :=
    (listMax_perm hAperm.symm).trans (sorted_listMax_eq hAsorted)
  have hBmin : listMin mn = B[0]? :=
    (listMin_perm hBperm.symm).trans (sorted_listMin_eq hBsorted)
  cases info with
  | Empty => simp [infoOk] at hinfo
  | EqualSizes =>
      simp only [infoOk] at hinfo
      obtain ⟨hlen, hne⟩ := hinfo
      have ht : 0 < mn.length := List.length_pos.mpr hne
      have hBne : B ≠ [] := by
        intro hnil
        rw [hnil] at hBlen
        simp at hBlen
        omega
      obtain ⟨b0, Brest, hBcons⟩ := List.exists_cons_of_ne_nil hBne
      have hAne : A ≠ [] := by
        intro hnil
        rw [hnil] at hAlen
        simp at hAlen
        omega
      have hBmin2 : listMin mn = some b0 := by
        rw [hBmin, hBcons]
        simp
      have hAmax2 : listMax mx = some (A.getLast hAne) := by
        rw [hAmax, ← List.getLast?_eq_getElem? A, List.getLast?_eq_getLast A hAne]
      have hL : Heaps.get_median ⟨mn, mx, .EqualSizes⟩
          = some ((b0 + A.getLast hAne) / (1 + 1)) := by
        simp only [Heaps.get_median]
        rw [hBmin2, hAmax2]
      have hABlen : (A ++ B).length = 2 * mn.length := by
        simp only [List.length_append, hAlen, hBlen]
        omega
      have hg1 : (A ++ B)[mn.length - 1]? = some (A.getLast hAne) := by
        rw [List.getElem?_append_left (by omega : mn.length - 1 < A.length)]
        have he : mn.length - 1 = A.length - 1 := by omega
        rw [he, ← List.getLast?_eq_getElem? A, List.getLast?_eq_getLast A hAne]
      have hg2 : (A ++ B)[mn.length]? = some b0 := by
        rw [List.getElem?_append_right (by omega : A.length ≤ mn.length)]
        have he : mn.length - A.length = 0 := by omega
        rw [he, hBcons]
        simp
      have hR : sortMedianRef (mx ++ mn)
          = some ((A.getLast hAne + b0) / 2) := by
        simp only [sortMedianRef, hsortEq, hABlen]
        have e2 : ¬(2 * mn.length = 0) := by omega
        have e3 : ¬(2 * mn.length % 2 = 1) := by omega
        simp only [if_neg e2, if_neg e3]
        have e4 : 2 * mn.length / 2 = mn.length := by omega
        rw [e4, hg1, hg2]
      rw [hL, hR]
      congr 1
      ring
  | MinHeapBigger =>
      simp only [infoOk] at hinfo
      have hne : mn ≠ [] := by
        intro hnil
        rw [hnil] at hinfo
        simp at hinfo
      have hBne : B ≠ [] := by
        intro hnil
        rw [hnil] at hBlen
        exact hne (List.length_eq_zero.mp hBlen.symm)
      obtain ⟨b0, Brest, hBcons⟩ := List.exists_cons_of_ne_nil hBne
      have hBmin2 : listMin mn = some b0 := by
        rw [hBmin, hBcons]
        simp
      have hL : Heaps.get_median ⟨mn, mx, .MinHeapBigger⟩ = some b0 := by
        simp only [Heaps.get_median]
        exact hBmin2
      have hABlen : (A ++ B).length = 2 * mx.length + 1 := by
        simp only [List.length_append, hAlen, hBlen]
        omega
      have hg : (A ++ B)[mx.length]? = some b0 := by
        rw [List.getElem?_append_right (by omega : A.length ≤ mx.length)]
        have he : mx.length - A.length = 0 := by omega
        rw [he, hBcons]
        simp
      have hR : sortMedianRef (mx ++ mn) = some b0 := by
        simp only [sortMedianRef, hsortEq, hABlen]
        have e2 : ¬(2 * mx.length + 1 = 0) := by omega
        have e3 : (2 * mx.length + 1) % 2 = 1 := by omega
        simp only [if_neg e2, if_pos e3]
        have e4 : (2 * mx.length + 1) / 2 = mx.length := by omega
        rw [e4, hg]
      rw [hL, hR]
  | MaxHeapBigger =>
      simp only [infoOk] at hinfo
      obtain ⟨hlen, hne⟩ := hinfo
      have ht : 0 < mn.length := List.length_pos.mpr hne
      have hAne : A ≠ [] := by
        intro hnil
        rw [hnil] at hAlen
        simp at hAlen
        omega
      have hAmax2 : listMax mx = some (A.getLast hAne) := by
        rw [hAmax, ← List.getLast?_eq_getElem? A, List.getLast?_eq_getLast A hAne]
      have hL : Heaps.get_median ⟨mn, mx, .MaxHeapBigger⟩
          = some (A.getLast hAne) := by
        simp only [Heaps.get_median]
        exact hAmax2
      have hABlen : (A ++ B).length = 2 * mn.length + 1 := by
        simp only [List.length_append, hAlen, hBlen]
        omega
      have hg : (A ++ B)[mn.length]? = some (A.getLast hAne) := by
        rw [List.getElem?_append_left (by omega : mn.length < A.length)]
        have he : mn.length = A.length - 1 := by omega
        rw [he, ← List.getLast?_eq_getElem? A, List.getLast?_eq_getLast A hAne]
      have hR : sortMedianRef (mx ++ mn) = some (A.getLast hAne) := by
        simp only [sortMedianRef, hsortEq, hABlen]
        have e2 : ¬(2 * mn.length + 1 = 0) := by omega
        have e3 : (2 * mn.length + 1) % 2 = 1 := by omega
        simp only [if_neg e2, if_pos e3]
        have e4 : (2 * mn.length + 1) / 2 = mn.length := by omega
        rw [e4, hg]
      rw [hL, hR]

theorem sortMedianRef_perm {l l' : List ℚ} (h : List.Perm l l') :
    sortMedianRef l = sortMedianRef l' := by
  have hsort : List.insertionSort (· ≤ ·) l = List.insertionSort (· ≤ ·) l' :=
    List.eq_of_perm_of_sorted
      ((List.perm_insertionSort _ l).trans
        (h.trans (List.perm_insertionSort _ l').symm))
      (List.sorted_insertionSort _ l) (List.sorted_insertionSort _ l')
  simp only [sortMedianRef, hsort]

theorem sortMedianRef_isSome {l : List ℚ} (hne : l ≠ []) :
    (sortMedianRef l).isSome := by
  have hlen : (List.insertionSort (· ≤ ·) l).length = l.length :=
    List.length_insertionSort _ l
  have hpos : 0 < l.length := List.length_pos.mpr hne
  simp only [sortMedianRef]
  rw [hlen]
  have hne2 : ¬(l.length = 0) := by omega
  rw [if_neg hne2]
  by_cases hodd : l.length % 2 = 1
  · rw [if_pos hodd]
    have : l.length / 2 < (List.insertionSort (· ≤ ·) l).length := by omega
    rw [List.getElem?_eq_getElem this]
    rfl
  · rw [if_neg hodd]
    have h2 : 2 ≤ l.length := by omega
    have hi1 : l.length / 2 - 1 < (List.insertionSort (· ≤ ·) l).length := by
      omega
    have hi2 : l.length / 2 < (List.insertionSort (· ≤ ·) l).length := by
      omega
    rw [List.getElem?_eq_getElem hi1, List.getElem?_eq_getElem hi2]
    rfl

/-- The median after pushing a nonempty sequence is the sort-based median
of the pushed values with the first one counted twice. -/
theorem medianAfter_eq_sortRef (v : ℚ) (rest : List ℚ) :
    medianAfter (v :: rest) = sortMedianRef (v :: v :: rest) := by
  obtain ⟨h2, hall, hinv, hperm⟩ := addAll_new_inv v rest
  have hmed := get_median_inv hinv
  rw [medianAfter, hall]
  simp only [Option.bind]
  rw [hmed]
  exact sortMedianRef_perm hperm

theorem medianAfter_eq_medianOfPushes (v : ℚ) (rest : List ℚ) :
    medianAfter (v :: rest) = some (medianOfPushes (v :: rest)) := by
  have hsome : (medianAfter (v :: rest)).isSome := by
    rw [medianAfter_eq_sortRef]
    exact sortMedianRef_isSome (by simp)
  obtain ⟨q, hq⟩ := Option.isSome_iff_exists.mp hsome
  rw [hq, medianOfPushes, hq]
  rfl

/-- State of a fresh pair after pushing a nonempty prefix: the invariant
holds, and its reported median is `medianOfPushes` of the prefix. -/
theorem addAll_new_spec {pref : List ℚ} {rh : Heaps} (hne : pref ≠ [])
    (hall : addAll Heaps.new pref = some rh) :
    HeapsInv rh ∧ rh.get_median = some (medianOfPushes pref) := by
  obtain ⟨v, rest, rfl⟩ := List.exists_cons_of_ne_nil hne
  obtain ⟨h2, hall2, hinv, hperm⟩ := addAll_new_inv v rest
  rw [hall2] at hall
  have hrh : h2 = rh := Option.some.inj hall
  subst hrh
  refine ⟨hinv, ?_⟩
  have hm := medianAfter_eq_medianOfPushes v rest
  rw [medianAfter, hall2] at hm
  simpa using hm

/-! Theory of the `BestCandidate` order and of Rust `Iterator::max`. -/

theorem bcCmp_eq_gt_iff (a b : BestCandidate) :
    bcCmp a b = .gt ↔
      (b.statistic < a.statistic ∨
        (a.statistic = b.statistic ∧ a.location < b.location)) := by
  unfold bcCmp
  rcases lt_trichotomy a.statistic b.statistic with h | h | h
  · have hc : compare a.statistic b.statistic = Ordering.lt :=
      compare_lt_iff_lt.mpr h
    rw [hc]
    simp only [reduceCtorEq, false_iff]
    rintro (h1 | ⟨h1, _⟩)
    · exact lt_asymm h h1
    · exact absurd h1 (ne_of_lt h)
  · have hc : compare a.statistic b.statistic = Ordering.eq :=
      compare_eq_iff_eq.mpr h
    rw [hc]
    rcases lt_trichotomy a.location b.location with hl | hl | hl
    · have hcl : compare a.location b.location = Ordering.lt :=
        compare_lt_iff_lt.mpr hl
      rw [hcl]
      simp only [Ordering.swap, true_iff]
      exact Or.inr ⟨h, hl⟩
    · have hcl : compare a.location b.location = Ordering.eq :=
        compare_eq_iff_eq.mpr hl
      rw [hcl]
      simp only [Ordering.swap, reduceCtorEq, false_iff]
      rintro (h1 | ⟨_, h1⟩)
      · exact absurd h h1.ne'
      · omega
    · have hcl : compare a.location b.location = Ordering.gt :=
        compare_gt_iff_gt.mpr hl
      rw [hcl]
      simp only [Ordering.swap, reduceCtorEq, false_iff]
      rintro (h1 | ⟨_, h1⟩)
      · exact absurd h h1.ne'
      · omega
  · have hc : compare a.statistic b.statistic = Ordering.gt :=
      compare_gt_iff_gt.mpr h
    rw [hc]
    simp only [true_iff]
    exact Or.inl h

theorem bcCmp_eq_eq_iff (a b : BestCandidate) : bcCmp a b = .eq ↔ a = b := by
  unfold bcCmp
  rcases lt_trichotomy a.statistic b.statistic with h | h | h
  · rw [compare_lt_iff_lt.mpr h]
    simp only [reduceCtorEq, false_iff]
    intro he
    rw [he] at h
    exact lt_irrefl _ h
  · rw [compare_eq_iff_eq.mpr h]
    rcases lt_trichotomy a.location b.location with hl | hl | hl
    · rw [compare_lt_iff_lt.mpr hl]
      simp only [Ordering.swap, reduceCtorEq, false_iff]
      intro he
      rw [he] at hl
      omega
    · rw [compare_eq_iff_eq.mpr hl]
      simp only [Ordering.swap, true_iff]
      obtain ⟨sa, la⟩ := a
      obtain ⟨sb, lb⟩ := b
      simp only at h hl
      rw [h, hl]
    · rw [compare_gt_iff_gt.mpr hl]
      simp only [Ordering.swap, reduceCtorEq, false_iff]
      intro he
      rw [he] at hl
      omega
  · rw [compare_gt_iff_gt.mpr h]
    simp only [reduceCtorEq, false_iff]
    intro he
    rw [he] at h
    exact lt_irrefl _ h

theorem bcCmp_swap (a b : BestCandidate) : bcCmp a b = (bcCmp b a).swap := by
  unfold bcCmp
  rcases lt_trichotomy a.statistic b.statistic with h | h | h
  · rw [compare_lt_iff_lt.mpr h, compare_gt_iff_gt.mpr h]
    rfl
  · rw [compare_eq_iff_eq.mpr h, compare_eq_iff_eq.mpr h.symm]
    rcases lt_trichotomy a.location b.location with hl | hl | hl
    · rw [compare_lt_iff_lt.mpr hl, compare_gt_iff_gt.mpr hl]
      rfl
    · rw [compare_eq_iff_eq.mpr hl, compare_eq_iff_eq.mpr hl.symm]
      rfl
    · rw [compare_gt_iff_gt.mpr hl, compare_lt_iff_lt.mpr hl]
      rfl
  · rw [compare_gt_iff_gt.mpr h, compare_lt_iff_lt.mpr h]
    rfl

theorem bcCmp_self (a : BestCandidate) : bcCmp a a = .eq :=
  bcCmp_eq_eq_iff a a |>.mpr rfl

theorem bcGt_trans {a b c : BestCandidate} (h1 : bcCmp a b = .gt)
    (h2 : bcCmp b c = .gt) : bcCmp a c = .gt := by
  rw [bcCmp_eq_gt_iff] at h1 h2 ⊢
  rcases h1 with h1 | ⟨h1e, h1l⟩ <;> rcases h2 with h2 | ⟨h2e, h2l⟩
  · exact Or.inl (lt_trans h2 h1)
  · exact Or.inl (h2e ▸ h1)
  · exact Or.inl (h1e.symm ▸ h2)
  · exact Or.inr ⟨h1e.trans h2e, lt_trans h1l h2l⟩

theorem bcNotGt_trans {a b c : BestCandidate} (h1 : bcCmp a b ≠ .gt)
    (h2 : bcCmp b c ≠ .gt) : bcCmp a c ≠ .gt := by
  intro hac
  rw [bcCmp_eq_gt_iff] at hac
  have h1n : ¬(b.statistic < a.statistic ∨
      (a.statistic = b.statistic ∧ a.location < b.location)) := by
    intro hx
    exact h1 ((bcCmp_eq_gt_iff a b).mpr hx)
  have h2n : ¬(c.statistic < b.statistic ∨
      (b.statistic = c.statistic ∧ b.location < c.location)) := by
    intro hx
    exact h2 ((bcCmp_eq_gt_iff b c).mpr hx)
  push_neg at h1n h2n
  obtain ⟨h1s, h1l⟩ := h1n
  obtain ⟨h2s, h2l⟩ := h2n
  have hab : a.statistic ≤ b.statistic := h1s
  have hbc : b.statistic ≤ c.statistic := h2s
  rcases hac with hlt | ⟨heq, hloc⟩
  · linarith
  · have he1 : a.statistic = b.statistic := le_antisymm hab (by linarith)
    have he2 : b.statistic = c.statistic := by rw [← he1, heq]
    have hl1 := h1l he1
    have hl2 := h2l he2
    omega

theorem bcMax2_left_le (m x : BestCandidate) :
    bcCmp m (bcMax2 m x) ≠ .gt := by
  unfold bcMax2
  by_cases h : bcCmp m x = .gt
  · rw [if_pos h, bcCmp_self]
    decide
  · rw [if_neg h]
    exact h

theorem bcMax2_right_le (m x : BestCandidate) :
    bcCmp x (bcMax2 m x) ≠ .gt := by
  unfold bcMax2
  by_cases h : bcCmp m x = .gt
  · rw [if_pos h]
    rw [bcCmp_swap] at h
    intro hx
    rw [hx] at h
    exact absurd h (by decide)
  · rw [if_neg h, bcCmp_self]
    decide

theorem bcMax2_cases (m x : BestCandidate) :
    bcMax2 m x = m ∨ bcMax2 m x = x := by
  unfold bcMax2
  by_cases h : bcCmp m x = .gt
  · rw [if_pos h]
    exact Or.inl rfl
  · rw [if_neg h]
    exact Or.inr rfl

theorem bcMax2_assoc (a b c : BestCandidate) :
    bcMax2 (bcMax2 a b) c = bcMax2 a (bcMax2 b c) := by
  by_cases h1 : bcCmp a b = .gt <;> by_cases h2 : bcCmp b c = .gt
  · have h3 : bcCmp a c = .gt := bcGt_trans h1 h2
    simp only [bcMax2, if_pos h1, if_pos h2, if_pos h3]
  · simp only [bcMax2, if_pos h1, if_neg h2]
  · simp only [bcMax2, if_neg h1, if_pos h2]
  · have h3 : bcCmp a c ≠ .gt := bcNotGt_trans h1 h2
    simp only [bcMax2, if_neg h1, if_neg h2, if_neg h3]

theorem rustMaxBC_nil : rustMaxBC [] = none := rfl

theorem foldl_step_some (l : List BestCandidate) (m : BestCandidate) :
    l.foldl
      (fun acc x =>
        some (match acc with
              | none => x
              | some m => if bcCmp m x = .gt then m else x))
      (some m) = some (l.foldl bcMax2 m) := by
  induction l generalizing m with
  | nil => rfl
  | cons x xs ih => simpa [bcMax2] using ih (bcMax2 m x)

theorem rustMaxBC_cons_eq (x : BestCandidate) (l : List BestCandidate) :
    rustMaxBC (x :: l) = some (l.foldl bcMax2 x) := by
  unfold rustMaxBC
  simpa using foldl_step_some l x

theorem foldl_bcMax2_pull (l : List BestCandidate) (m y : BestCandidate) :
    l.foldl bcMax2 (bcMax2 m y) = bcMax2 m (l.foldl bcMax2 y) := by
  induction l generalizing y with
  | nil => rfl
  | cons z zs ih =>
      simp only [List.foldl_cons]
      rw [bcMax2_assoc]
      exact ih (bcMax2 y z)

theorem rustMaxBC_append (l1 l2 : List BestCandidate) :
    rustMaxBC (l1 ++ l2) = omaxBC (rustMaxBC l1) (rustMaxBC l2) := by
  cases l1 with
  | nil => simp [rustMaxBC_nil, omaxBC]
  | cons x rest =>
      cases l2 with
      | nil => simp [rustMaxBC_cons_eq, rustMaxBC_nil, omaxBC]
      | cons y r2 =>
          rw [show (x :: rest) ++ (y :: r2) = x :: (rest ++ y :: r2) from rfl]
          rw [rustMaxBC_cons_eq, rustMaxBC_cons_eq, rustMaxBC_cons_eq]
          simp only [omaxBC]
          rw [List.foldl_append]
          simp only [List.foldl_cons]
          rw [foldl_bcMax2_pull r2 (rest.foldl bcMax2 x) y]

theorem foldl_bcMax2_spec (l : List BestCandidate) (x : BestCandidate) :
    (l.foldl bcMax2 x = x ∨ l.foldl bcMax2 x ∈ l) ∧
      bcCmp x (l.foldl bcMax2 x) ≠ .gt ∧
      ∀ c ∈ l, bcCmp c (l.foldl bcMax2 x) ≠ .gt := by
  induction l generalizing x with
  | nil =>
      refine ⟨Or.inl rfl, ?_, by simp⟩
      simp only [List.foldl_nil, bcCmp_self]
      decide
  | cons y ys ih =>
      obtain ⟨hmem, hx, hall⟩ := ih (bcMax2 x y)
      simp only [List.foldl_cons]
      refine ⟨?_, ?_, ?_⟩
      · rcases hmem with he | hin
        · rcases bcMax2_cases x y with h | h
          · exact Or.inl (he.trans h)
          · exact Or.inr (by rw [he, h]; exact List.mem_cons_self _ _)
        · exact Or.inr (List.mem_cons_of_mem y hin)
      · exact bcNotGt_trans (bcMax2_left_le x y) hx
      · intro c hc
        rcases List.mem_cons.mp hc with rfl | hc
        · exact bcNotGt_trans (bcMax2_right_le x c) hx
        · exact hall c hc

theorem rustMaxBC_spec {l : List BestCandidate} {r : BestCandidate}
    (h : rustMaxBC l = some r) :
    r ∈ l ∧ ∀ c ∈ l, bcCmp c r ≠ .gt := by
  cases l with
  | nil => simp [rustMaxBC_nil] at h
  | cons x rest =>
      rw [rustMaxBC_cons_eq] at h
      have hr : rest.foldl bcMax2 x = r := Option.some.inj h
      obtain ⟨hmem, hx, hall⟩ := foldl_bcMax2_spec rest x
      rw [hr] at hmem hx hall
      refine ⟨?_, ?_⟩
      · rcases hmem with he | hin
        · rw [← he]
          exact List.mem_cons_self _ _
        · exact List.mem_cons_of_mem x hin
      · intro c hc
        rcases List.mem_cons.mp hc with rfl | hc
        · exact hx
        · exact hall c hc

/-! Correctness of the inner and outer scans of `edm_x`. -/

theorem addAll_append (h : Heaps) (l1 l2 : List ℚ) :
    addAll h (l1 ++ l2) = (addAll h l1).bind fun h2 => addAll h2 l2 := by
  induction l1 generalizing h with
  | nil => simp [addAll]
  | cons x xs ih =>
      simp only [List.cons_append, addAll]
      cases hx : h.add_to_heaps x with
      | none => rfl
      | some h2 => simp [ih h2]

theorem range'_split (s m k : ℕ) :
    List.range' s (m + k) = List.range' s m ++ List.range' (s + m) k := by
  have happ := List.range'_append s m k 1
  simp only [Nat.one_mul] at happ
  rw [Nat.add_comm m k]
  exact happ.symm

/-- The inner scan started after pushing `pref` emits exactly one candidate
per scored index: the weighted squared difference between the fixed left
median and the running right median at that index. -/
theorem innerScan_eq (lm : ℚ) (delta i : ℕ) (zs : List ℚ) :
    ∀ (pref : List ℚ) (rh : Heaps), addAll Heaps.new pref = some rh →
    innerScan lm delta i pref.length rh zs =
      some (((List.range' pref.length zs.length).filter
            (fun jmi => decide (delta ≤ jmi))).map
          (fun jmi =>
            ⟨specWeight i (jmi + i) *
              ((lm - medianOfPushes ((pref ++ zs).take (jmi + 1))) *
                (lm - medianOfPushes ((pref ++ zs).take (jmi + 1)))), i⟩)) := by
  induction zs with
  | nil =>
      intro pref rh hall
      simp [innerScan]
  | cons x rest ih =>
      intro pref rh hall
      have hstep : ∃ rh2, rh.add_to_heaps x = some rh2 ∧
          addAll Heaps.new (pref ++ [x]) = some rh2 := by
        cases pref with
        | nil =>
            have hrh : Heaps.new = rh := by
              simpa [addAll] using hall
            refine ⟨⟨[x], [x], .EqualSizes⟩, ?_, rfl⟩
            rw [← hrh]
            rfl
        | cons p ps =>
            have hinv := (addAll_new_spec (by simp) hall).1
            obtain ⟨rh2, hadd, _, _⟩ := add_to_heaps_step hinv x
            refine ⟨rh2, hadd, ?_⟩
            have happ := addAll_append Heaps.new (p :: ps) [x]
            rw [show p :: ps ++ [x] = (p :: ps) ++ [x] from rfl, happ, hall]
            simp [addAll, hadd]
      obtain ⟨rh2, hadd, hall2⟩ := hstep
      have ih2 := ih (pref ++ [x]) rh2 hall2
      have hlen1 : (pref ++ [x]).length = pref.length + 1 := by simp
      have hfull : (pref ++ [x]) ++ rest = pref ++ x :: rest := by simp
      rw [hlen1, hfull] at ih2
      have hmed2 : rh2.get_median
          = some (medianOfPushes ((pref ++ x :: rest).take (pref.length + 1))) := by
        have htk : (pref ++ x :: rest).take (pref.length + 1) = pref ++ [x] := by
          have htk1 : (pref ++ (x :: rest)).take (pref.length + 1)
              = pref ++ (x :: rest).take 1 := List.take_append 1
          simpa using htk1
        rw [htk]
        exact (addAll_new_spec (by simp) hall2).2
      have hcons : List.range' pref.length (rest.length + 1)
          = pref.length :: List.range' (pref.length + 1) rest.length := rfl
      simp only [innerScan, hadd, Option.some_bind]
      rw [ih2]
      simp only [Option.some_bind]
      by_cases hlt : pref.length < delta
      · have hdec : decide (delta ≤ pref.length) = false := by
          simp
          omega
        rw [if_pos hlt]
        rw [List.length_cons, hcons, List.filter_cons, hdec]
        simp
      · have hdec : decide (delta ≤ pref.length) = true := by
          simp
          omega
        rw [if_neg hlt, hmed2]
        simp only [Option.some_bind]
        rw [List.length_cons, hcons, List.filter_cons, hdec]
        simp only [if_true, List.map_cons]
        rfl

theorem addAll_new_total {l : List ℚ} (hne : l ≠ []) :
    ∃ h2, addAll Heaps.new l = some h2 ∧ HeapsInv h2 ∧
      h2.get_median = some (medianOfPushes l) := by
  obtain ⟨v, rest, rfl⟩ := List.exists_cons_of_ne_nil hne
  obtain ⟨h2, hall, hinv, _⟩ := addAll_new_inv v rest
  exact ⟨h2, hall, hinv, (addAll_new_spec hne hall).2⟩

/-- The candidate list of the inner scan at boundary `i`, with the left
median over `z.take (i+1)`, is exactly the specification-described list. -/
theorem innerScan_at_eq {z : List ℚ} {delta i : ℕ}
    (hin : i + delta < z.length) :
    innerScan (medianOfPushes (z.take (i + 1))) delta i 0 Heaps.new (z.drop i)
      = some ((jRange z.length delta i).map (specCand z i)) := by
  have hscan := innerScan_eq (medianOfPushes (z.take (i + 1))) delta i
    (z.drop i) [] Heaps.new rfl
  simp only [List.length_nil, List.nil_append] at hscan
  rw [hscan]
  congr 1
  have hdlen : (z.drop i).length = z.length - i := List.length_drop i z
  have hsplit : List.range' 0 ((z.drop i).length)
      = List.range' 0 delta ++ List.range' delta (z.length - i - delta) := by
    rw [hdlen]
    have he : z.length - i = delta + (z.length - i - delta) := by omega
    rw [he, range'_split]
    simp
  rw [hsplit, List.filter_append]
  have hf1 : (List.range' 0 delta).filter (fun jmi => decide (delta ≤ jmi))
      = [] := by
    rw [List.filter_eq_nil_iff]
    intro a ha
    have hm := List.mem_range'_1.mp ha
    simp
    omega
  have hf2 : (List.range' delta (z.length - i - delta)).filter
        (fun jmi => decide (delta ≤ jmi))
      = List.range' delta (z.length - i - delta) := by
    rw [List.filter_eq_self]
    intro a ha
    have hm := List.mem_range'_1.mp ha
    simp
    omega
  rw [hf1, hf2]
  simp only [List.nil_append]
  have hmapidx : List.range' (i + delta) (z.length - (i + delta))
      = (List.range' delta (z.length - i - delta)).map (i + ·) := by
    rw [List.map_add_range']
    congr 1
    omega
  rw [jRange, hmapidx, List.map_map]
  apply List.map_congr_left
  intro jmi hjmi
  simp only [Function.comp]
  have h1 : i + jmi = jmi + i := Nat.add_comm i jmi
  have h2 : jmi + i - i = jmi := by omega
  simp only [specCand, h1, h2]

/-- For a scored boundary `i`, the inner scan never panics and its maximum
is `innerBest`. -/
theorem inner_edm_x_loop_at {z : List ℚ} {delta i : ℕ}
    (hin : i + delta < z.length) :
    inner_edm_x_loop (medianOfPushes (z.take (i + 1))) delta (z.drop i) i
        = some (innerBest z delta i) ∧
      rustMaxBC ((jRange z.length delta i).map (specCand z i))
        = some (innerBest z delta i) := by
  have hne : (jRange z.length delta i).map (specCand z i) ≠ [] := by
    simp only [ne_eq, List.map_eq_nil_iff, jRange]
    intro hnil
    have := List.range'_eq_nil.mp hnil
    omega
  obtain ⟨c, cs, hcons⟩ :=
    List.exists_cons_of_ne_nil hne
  have hmax : rustMaxBC ((jRange z.length delta i).map (specCand z i))
      = some (cs.foldl bcMax2 c) := by
    rw [hcons, rustMaxBC_cons_eq]
  have hbest : innerBest z delta i = cs.foldl bcMax2 c := by
    rw [innerBest, hmax]
    rfl
  refine ⟨?_, by rw [hmax, hbest]⟩
  rw [inner_edm_x_loop, innerScan_at_eq hin]
  simp only [Option.some_bind]
  rw [hmax, hbest]

theorem rustMaxBC_cons_omax (x : BestCandidate) (l : List BestCandidate) :
    rustMaxBC (x :: l) = omaxBC (some x) (rustMaxBC l) := by
  have happ := rustMaxBC_append [x] l
  have h1 : rustMaxBC [x] = some x := rfl
  rw [h1] at happ
  simpa using happ

theorem rustMax_flatten_eq (idx : List ℕ) (gf : ℕ → List BestCandidate)
    (bf : ℕ → BestCandidate)
    (h : ∀ a ∈ idx, rustMaxBC (gf a) = some (bf a)) :
    rustMaxBC ((idx.map gf).flatten) = rustMaxBC (idx.map bf) := by
  induction idx with
  | nil => rfl
  | cons a rest ih =>
      simp only [List.map_cons, List.flatten_cons]
      rw [rustMaxBC_append, h a (List.mem_cons_self a rest),
        rustMaxBC_cons_omax,
        ih (fun b hb => h b (List.mem_cons_of_mem a hb))]

/-- The outer scan started after pushing the prefix `pref` of the scanned
slice emits, for each remaining boundary at or past `delta`, the best inner
candidate at that boundary. -/
theorem outerScan_eq (z : List ℚ) (delta : ℕ) (zs : List ℚ) :
    ∀ (pref : List ℚ) (lh : Heaps),
      addAll Heaps.new pref = some lh →
      pref ++ zs = z.take (z.length - delta) →
      outerScan z delta pref.length lh zs =
        some (((List.range' pref.length zs.length).filter
            (fun i => decide (delta ≤ i))).map (innerBest z delta)) := by
  induction zs with
  | nil =>
      intro pref lh hall hsplit
      simp [outerScan]
  | cons x rest ih =>
      intro pref lh hall hsplit
      have hstep : ∃ lh2, lh.add_to_heaps x = some lh2 ∧
          addAll Heaps.new (pref ++ [x]) = some lh2 := by
        cases pref with
        | nil =>
            have hrh : Heaps.new = lh := by
              simpa [addAll] using hall
            refine ⟨⟨[x], [x], .EqualSizes⟩, ?_, rfl⟩
            rw [← hrh]
            rfl
        | cons p ps =>
            have hinv := (addAll_new_spec (by simp) hall).1
            obtain ⟨lh2, hadd, _, _⟩ := add_to_heaps_step hinv x
            refine ⟨lh2, hadd, ?_⟩
            have happ := addAll_append Heaps.new (p :: ps) [x]
            rw [show p :: ps ++ [x] = (p :: ps) ++ [x] from rfl, happ, hall]
            simp [addAll, hadd]
      obtain ⟨lh2, hadd, hall2⟩ := hstep
      have hlen3 : pref.length + rest.length + 1 = z.length - delta := by
        have hl := congrArg List.length hsplit
        simp only [List.length_append, List.length_cons, List.length_take] at hl
        omega
      have hkey : pref ++ [x] = z.take (pref.length + 1) := by
        have h1 : (pref ++ x :: rest).take (pref.length + 1) = pref ++ [x] := by
          have htk1 : (pref ++ (x :: rest)).take (pref.length + 1)
              = pref ++ (x :: rest).take 1 := List.take_append 1
          simpa using htk1
        rw [hsplit] at h1
        rw [List.take_take] at h1
        have hmin : min (pref.length + 1) (z.length - delta)
            = pref.length + 1 := by omega
        rw [hmin] at h1
        exact h1.symm
      have hsplit2 : (pref ++ [x]) ++ rest = z.take (z.length - delta) := by
        rw [← hsplit]
        simp
      have ih2 := ih (pref ++ [x]) lh2 hall2 hsplit2
      have hlen1 : (pref ++ [x]).length = pref.length + 1 := by simp
      rw [hlen1] at ih2
      simp only [outerScan, hadd, Option.some_bind]
      rw [ih2]
      simp only [Option.some_bind]
      have hcons : List.range' pref.length (rest.length + 1)
          = pref.length :: List.range' (pref.length + 1) rest.length := rfl
      by_cases hlt : pref.length < delta
      · have hdec : decide (delta ≤ pref.length) = false := by
          simp
          omega
        rw [if_pos hlt]
        rw [List.length_cons, hcons, List.filter_cons, hdec]
        simp
      · have hdec : decide (delta ≤ pref.length) = true := by
          simp
          omega
        have hδi : delta ≤ pref.length := by omega
        have hin : pref.length + delta < z.length := by omega
        have hmed2 : lh2.get_median
            = some (medianOfPushes (z.take (pref.length + 1))) := by
          rw [← hkey]
          exact (addAll_new_spec (by simp) hall2).2
        rw [if_neg hlt, hmed2]
        simp only [Option.some_bind]
        rw [(inner_edm_x_loop_at hin).1]
        simp only [Option.some_bind]
        rw [List.length_cons, hcons, List.filter_cons, hdec]
        simp only [if_true, List.map_cons]

/-- The embedded scan equals the maximum over the specification-described
candidate list. -/
theorem edm_x_eq_spec (z : List ℚ) (delta : ℕ) (h2δ : 2 * delta ≤ z.length) :
    edm_x z delta = rustMaxBC (specAllCands z delta) := by
  unfold edm_x
  have hout := outerScan_eq z delta (z.take (z.length - delta)) [] Heaps.new
    rfl (by simp)
  simp only [List.length_nil] at hout
  rw [hout]
  simp only [Option.some_bind]
  have htlen : (z.take (z.length - delta)).length = z.length - delta := by
    simp
  rw [htlen]
  have hrsplit : List.range' 0 (z.length - delta)
      = List.range' 0 delta ++ List.range' delta (z.length - 2 * delta) := by
    have he : z.length - delta = delta + (z.length - 2 * delta) := by omega
    rw [he, range'_split]
    simp
  rw [hrsplit, List.filter_append]
  have hf1 : (List.range' 0 delta).filter (fun i => decide (delta ≤ i))
      = [] := by
    rw [List.filter_eq_nil_iff]
    intro a ha
    have hm := List.mem_range'_1.mp ha
    simp
    omega
  have hf2 : (List.range' delta (z.length - 2 * delta)).filter
        (fun i => decide (delta ≤ i))
      = List.range' delta (z.length - 2 * delta) := by
    rw [List.filter_eq_self]
    intro a ha
    have hm := List.mem_range'_1.mp ha
    simp
    omega
  rw [hf1, hf2]
  simp only [List.nil_append]
  have hiR : List.range' delta (z.length - 2 * delta) = iRange z.length delta :=
    rfl
  rw [hiR, specAllCands]
  exact (rustMax_flatten_eq (iRange z.length delta)
    (fun i => (jRange z.length delta i).map (specCand z i))
    (innerBest z delta)
    (fun a ha => by
      have hm := List.mem_range'_1.mp ha
      have hδa : delta ≤ a := hm.1
      have hina : a + delta < z.length := by omega
      exact (inner_edm_x_loop_at hina).2)).symm

/-! Theory of the permutation test. -/

theorem except_isOk_exists {x : Except ErrorKind BestCandidate}
    (h : x.isOk) : ∃ b, x = .ok b := by
  cases x <;> simp [Except.isOk, Except.toBool] at h ⊢

theorem run_algorithm_on_permutation_ok
    {algorithm : List ℚ → Except ErrorKind BestCandidate}
    {true_statistic : ℚ} {p : List ℚ} {b : BestCandidate}
    (h : algorithm p = .ok b) :
    run_algorithm_on_permutation algorithm true_statistic p
      = .ok (if b.statistic ≤ true_statistic then (0 : ℚ) else 1) := by
  rw [run_algorithm_on_permutation, h]
  show (if b.statistic ≤ true_statistic then (Except.ok (0 : ℚ) :
      Except ErrorKind ℚ) else .ok 1) = _
  by_cases hle : b.statistic ≤ true_statistic
  · rw [if_pos hle, if_pos hle]
  · rw [if_neg hle, if_neg hle]

theorem run_algorithm_on_permutation_error
    {algorithm : List ℚ → Except ErrorKind BestCandidate}
    {true_statistic : ℚ} {p : List ℚ} {e : ErrorKind}
    (h : algorithm p = .error e) :
    run_algorithm_on_permutation algorithm true_statistic p = .error e := by
  rw [run_algorithm_on_permutation, h]
  rfl

theorem fold_add_ok (ws : List ℚ) (acc : ℚ) :
    (ws.map Except.ok).foldl
      (fun (a : Except ErrorKind ℚ) r =>
        a.bind fun q => r.bind fun w => Except.ok (q + w))
      (.ok acc) = .ok (acc + ws.sum) := by
  induction ws generalizing acc with
  | nil => simp
  | cons w ws ih =>
      simp only [List.map_cons, List.foldl_cons, List.sum_cons]
      have hstep : (Except.ok acc : Except ErrorKind ℚ).bind
          (fun q => (Except.ok w : Except ErrorKind ℚ).bind
            fun v => Except.ok (q + v)) = .ok (acc + w) := rfl
      rw [hstep, ih (acc + w)]
      congr 1
      ring

theorem fold_add_error_stays (rs : List (Except ErrorKind ℚ))
    (e : ErrorKind) :
    rs.foldl
      (fun (a : Except ErrorKind ℚ) r =>
        a.bind fun q => r.bind fun w => Except.ok (q + w))
      (.error e) = .error e := by
  induction rs with
  | nil => rfl
  | cons r rs ih =>
      simp only [List.foldl_cons]
      have hstep : (Except.error e : Except ErrorKind ℚ).bind
          (fun q => r.bind fun w => Except.ok (q + w)) = .error e := rfl
      rw [hstep, ih]

/-- Indicator of a permutation whose detector statistic strictly exceeds
the true statistic. -/
theorem permutation_test_ok
    (algorithm : List ℚ → Except ErrorKind BestCandidate)
    (perms : List (List ℚ)) (obs : List ℚ) (bc : BestCandidate)
    (h1 : algorithm obs = .ok bc)
    (h2 : ∀ p ∈ perms, (algorithm p).isOk) :
    permutation_test algorithm perms obs =
      .ok ⟨((countGreater algorithm bc.statistic perms : ℕ) : ℚ)
            / ((perms.length : ℚ) + 1), bc.location⟩ := by
  have hres : perms.map (run_algorithm_on_permutation algorithm bc.statistic)
      = (perms.map (fun p =>
          if (match algorithm p with
              | .ok b => decide (bc.statistic < b.statistic)
              | .error _ => false) then (1 : ℚ) else 0)).map Except.ok := by
    rw [List.map_map]
    apply List.map_congr_left
    intro p hp
    obtain ⟨b, hb⟩ := except_isOk_exists (h2 p hp)
    rw [run_algorithm_on_permutation_ok hb]
    simp only [Function.comp_apply, hb]
    by_cases hle : b.statistic ≤ bc.statistic
    · rw [if_pos hle]
      simp [not_lt.mpr hle]
    · rw [if_neg hle]
      simp [not_le.mp hle]
  have hsum : ∀ l : List (List ℚ),
      (l.map (fun p =>
          if (match algorithm p with
              | .ok b => decide (bc.statistic < b.statistic)
              | .error _ => false) then (1 : ℚ) else 0)).sum
        = ((countGreater algorithm bc.statistic l : ℕ) : ℚ) := by
    intro l
    induction l with
    | nil => simp [countGreater]
    | cons q qs ihq =>
        simp only [List.map_cons, List.sum_cons, countGreater,
          List.countP_cons] at ihq ⊢
        rw [ihq]
        by_cases hq : (match algorithm q with
            | .ok b => decide (bc.statistic < b.statistic)
            | .error _ => false) = true
        · simp [hq]
          ring
        · simp [hq]
  simp only [permutation_test, h1]
  rw [hres, fold_add_ok]
  simp only [zero_add]
  rw [hsum perms]

/-- A failing permutation scan aborts the whole test with the original
detector error (the earliest failure in permutation order). -/
theorem permutation_test_error
    (algorithm : List ℚ → Except ErrorKind BestCandidate)
    (pre post : List (List ℚ)) (p : List ℚ) (obs : List ℚ)
    (bc : BestCandidate) (e : ErrorKind)
    (h1 : algorithm obs = .ok bc)
    (h2 : ∀ q ∈ pre, (algorithm q).isOk)
    (h3 : algorithm p = .error e) :
    permutation_test algorithm (pre ++ p :: post) obs = .error e := by
  have hres : pre.map (run_algorithm_on_permutation algorithm bc.statistic)
      = (pre.map (fun q =>
          if (match algorithm q with
              | .ok b => decide (bc.statistic < b.statistic)
              | .error _ => false) then (1 : ℚ) else 0)).map Except.ok := by
    rw [List.map_map]
    apply List.map_congr_left
    intro q hq
    obtain ⟨b, hb⟩ := except_isOk_exists (h2 q hq)
    rw [run_algorithm_on_permutation_ok hb]
    simp only [Function.comp_apply, hb]
    by_cases hle : b.statistic ≤ bc.statistic
    · rw [if_pos hle]
      simp [not_lt.mpr hle]
    · rw [if_neg hle]
      simp [not_le.mp hle]
  simp only [permutation_test, h1]
  rw [List.map_append, List.map_cons,
    run_algorithm_on_permutation_error h3, List.foldl_append, hres,
    fold_add_ok]
  simp only [List.foldl_cons]
  have hstep : (Except.ok (0 + (pre.map (fun q =>
      if (match algorithm q with
          | .ok b => decide (bc.statistic < b.statistic)
          | .error _ => false) then (1 : ℚ) else 0)).sum) :
        Except ErrorKind ℚ).bind
      (fun q => (Except.error e : Except ErrorKind ℚ).bind
        fun w => Except.ok (q + w)) = .error e := rfl
  rw [hstep, fold_add_error_stays]

/-! Theory of the clipped `NonNaN` arithmetic. -/

theorem mkFinite_ne_nan (q : ℚ) (b : Bool) : mkFinite q b ≠ .nan := by
  unfold mkFinite
  split_ifs <;> simp

theorem mkFinite_finite_or_inf (q : ℚ) (b : Bool) :
    (mkFinite q b).isFiniteVal = true ∨ mkFinite q b = .inf ∨
      mkFinite q b = .negInf := by
  unfold mkFinite
  split_ifs <;> simp [F64.isFiniteVal]

theorem clip_isSome_of_ne_nan {v : F64} (hv : v ≠ .nan) :
    (clip_to_finite v).isSome := by
  cases v <;>
    simp_all [clip_to_finite, NonNaN.new, F64.is_nan, F64.is_infinite,
      F64.is_sign_positive]

theorem finite_cases (x : NonNaN) :
    (∃ q, x.val = .num q) ∨ x.val = .negZero := by
  obtain ⟨v, hv⟩ := x
  cases v with
  | nan => exact absurd hv (by simp [F64.isFiniteVal])
  | inf => exact absurd hv (by simp [F64.isFiniteVal])
  | negInf => exact absurd hv (by simp [F64.isFiniteVal])
  | negZero => exact Or.inr rfl
  | num q => exact Or.inl ⟨q, rfl⟩

theorem add_finite_ne_nan {a b : F64} (ha : a.isFiniteVal = true)
    (hb : b.isFiniteVal = true) : F64.add a b ≠ .nan := by
  cases a <;> cases b <;>
    simp_all [F64.isFiniteVal, F64.add, mkFinite_ne_nan]

theorem nnAdd_isSome (x y : NonNaN) : (nnAdd x y).isSome := by
  exact clip_isSome_of_ne_nan (add_finite_ne_nan x.property y.property)

theorem neg_finite {a : F64} (ha : a.isFiniteVal = true) :
    (F64.neg a).isFiniteVal = true := by
  cases a with
  | nan => simp [F64.isFiniteVal] at ha
  | inf => simp [F64.isFiniteVal] at ha
  | negInf => simp [F64.isFiniteVal] at ha
  | negZero => rfl
  | num q =>
      show (if q = 0 then F64.negZero else F64.num (-q)).isFiniteVal = true
      split_ifs <;> rfl

theorem new_isSome_of_finite {a : F64} (ha : a.isFiniteVal = true) :
    ∃ r : NonNaN, NonNaN.new a = some r ∧ r.val = a := by
  cases a <;> simp_all [F64.isFiniteVal, NonNaN.new, F64.is_nan,
    F64.is_infinite]

theorem nnSub_isSome (x y : NonNaN) : (nnSub x y).isSome := by
  obtain ⟨r, hr, hrv⟩ := new_isSome_of_finite (neg_finite y.property)
  rw [nnSub, hr]
  simpa using nnAdd_isSome x r

theorem mul_finite_ne_nan {a b : F64} (ha : a.isFiniteVal = true)
    (hb : b.isFiniteVal = true) : F64.mul a b ≠ .nan := by
  unfold F64.mul
  have hna : a.is_nan = false := by cases a <;> simp_all [F64.isFiniteVal, F64.is_nan]
  have hnb : b.is_nan = false := by cases b <;> simp_all [F64.isFiniteVal, F64.is_nan]
  have hia : a.is_infinite = false := by
    cases a <;> simp_all [F64.isFiniteVal, F64.is_infinite]
  have hib : b.is_infinite = false := by
    cases b <;> simp_all [F64.isFiniteVal, F64.is_infinite]
  rw [hna, hnb, hia, hib]
  simp only [Bool.false_or, Bool.false_and, Bool.and_false, Bool.or_self,
    if_false, Bool.false_eq_true]
  split_ifs <;> simp [mkFinite_ne_nan]

theorem nnMul_isSome (x y : NonNaN) : (nnMul x y).isSome := by
  exact clip_isSome_of_ne_nan (mul_finite_ne_nan x.property y.property)

theorem minPositiveVal_pos : (0 : ℚ) < minPositiveVal := by
  rw [minPositiveVal]
  positivity

theorem minPositiveVal_le_max : minPositiveVal ≤ maxFiniteVal := by
  rw [minPositiveVal, maxFiniteVal]
  norm_num

theorem maxFiniteVal_pos : (0 : ℚ) < maxFiniteVal := by
  rw [maxFiniteVal]
  norm_num

theorem F64_mul_pos_pos {a b : ℚ} (ha : 0 < a) (hb : 0 < b)
    (hle : a * b ≤ maxFiniteVal) :
    F64.mul (.num a) (.num b) = .num (a * b) := by
  have hs : (F64.num a).signBitNeg = false := by
    simp [F64.signBitNeg, F64.is_sign_positive, le_of_lt ha]
  have hs2 : (F64.num b).signBitNeg = false := by
    simp [F64.signBitNeg, F64.is_sign_positive, le_of_lt hb]
  have habs : |(F64.num a).toRat| * |(F64.num b).toRat| = a * b := by
    simp [F64.toRat, abs_of_pos ha, abs_of_pos hb]
  unfold F64.mul
  rw [hs, hs2, habs]
  simp only [F64.is_nan, F64.is_infinite, Bool.or_self, Bool.false_and,
    Bool.and_false, Bool.or_false, bne_self_eq_false, Bool.false_eq_true,
    if_false]
  rw [if_neg (by positivity : ¬(a * b = 0))]
  rw [mkFinite, if_neg (not_lt.mpr hle),
    if_neg (by nlinarith [maxFiniteVal_pos] : ¬(a * b < -maxFiniteVal)),
    if_neg (by positivity : ¬(a * b = 0))]

theorem F64_mul_pos_negone {a : ℚ} (ha : 0 < a) (hle : a ≤ maxFiniteVal) :
    F64.mul (.num a) (.num (-1)) = .num (-a) := by
  have hs : (F64.num a).signBitNeg = false := by
    simp [F64.signBitNeg, F64.is_sign_positive, le_of_lt ha]
  have hs2 : (F64.num (-1 : ℚ)).signBitNeg = true := by
    simp [F64.signBitNeg, F64.is_sign_positive]
  have habs : |(F64.num a).toRat| * |(F64.num (-1 : ℚ)).toRat| = a := by
    simp [F64.toRat, abs_of_pos ha]
  unfold F64.mul
  rw [hs, hs2, habs]
  simp only [F64.is_nan, F64.is_infinite, Bool.or_self, Bool.false_and,
    Bool.and_false, Bool.or_false, Bool.false_eq_true, if_false,
    bne_iff_ne, ne_eq, Bool.false_eq_true]
  simp only [not_false_eq_true, if_true]
  rw [if_neg (ne_of_gt ha)]
  rw [mkFinite,
    if_neg (by nlinarith [maxFiniteVal_pos] : ¬(-a > maxFiniteVal)),
    if_neg (not_lt.mpr (neg_le_neg hle)),
    if_neg (by rw [neg_eq_zero]; exact ne_of_gt ha)]

theorem as_divisor_num_eq (q : ℚ) :
    as_divisor (.num q) = if q = 0 then .num minPositiveVal else .num q := by
  by_cases hq : q = 0
  · subst hq
    rw [if_pos rfl]
    have hstep : as_divisor (.num 0)
        = F64.mul (.num minPositiveVal) (.num 1) := by
      simp [as_divisor, F64.isZeroF, F64.is_sign_positive]
    rw [hstep, F64_mul_pos_pos minPositiveVal_pos one_pos
      (by simpa using minPositiveVal_le_max), mul_one]
  · simp [as_divisor, F64.isZeroF, hq]

theorem as_divisor_negZero_eq :
    as_divisor .negZero = .num (-minPositiveVal) := by
  have hstep : as_divisor .negZero
      = F64.mul (.num minPositiveVal) (.num (-1)) := by
    simp [as_divisor, F64.isZeroF, F64.is_sign_positive]
  rw [hstep, F64_mul_pos_negone minPositiveVal_pos minPositiveVal_le_max]

theorem as_divisor_nonzero_num (y : NonNaN) :
    ∃ q, q ≠ 0 ∧ as_divisor y.val = .num q := by
  rcases finite_cases y with ⟨q, hq⟩ | hq
  · rw [hq, as_divisor_num_eq]
    by_cases h0 : q = 0
    · exact ⟨minPositiveVal, ne_of_gt minPositiveVal_pos, by rw [if_pos h0]⟩
    · exact ⟨q, h0, by rw [if_neg h0]⟩
  · rw [hq, as_divisor_negZero_eq]
    exact ⟨-minPositiveVal, by
      have := minPositiveVal_pos
      intro hcon
      linarith, rfl⟩

theorem div_finite_ne_nan {a : F64} (ha : a.isFiniteVal = true)
    {q : ℚ} (hq : q ≠ 0) : F64.div a (.num q) ≠ .nan := by
  have hna : a.is_nan = false := by
    cases a <;> simp_all [F64.isFiniteVal, F64.is_nan]
  have hia : a.is_infinite = false := by
    cases a <;> simp_all [F64.isFiniteVal, F64.is_infinite]
  have hnb : (F64.num q).is_nan = false := rfl
  have hib : (F64.num q).is_infinite = false := rfl
  have hzb : (F64.num q).isZeroF = false := by simp [F64.isZeroF, hq]
  unfold F64.div
  rw [hna, hnb, hia, hib, hzb]
  simp only [Bool.or_self, Bool.or_false, Bool.false_or, Bool.false_and,
    Bool.and_false, Bool.false_eq_true, if_false]
  split_ifs <;> simp [mkFinite_ne_nan]

theorem nnDiv_isSome (x y : NonNaN) : (nnDiv x y).isSome := by
  obtain ⟨q, hq, hdiv⟩ := as_divisor_nonzero_num y
  rw [nnDiv, hdiv]
  exact clip_isSome_of_ne_nan (div_finite_ne_nan x.property hq)

theorem rem_finite_ne_nan {a : F64} (ha : a.isFiniteVal = true)
    {q : ℚ} (hq : q ≠ 0) : F64.rem a (.num q) ≠ .nan := by
  have hna : a.is_nan = false := by
    cases a <;> simp_all [F64.isFiniteVal, F64.is_nan]
  have hia : a.is_infinite = false := by
    cases a <;> simp_all [F64.isFiniteVal, F64.is_infinite]
  have hnb : (F64.num q).is_nan = false := rfl
  have hib : (F64.num q).is_infinite = false := rfl
  have hzb : (F64.num q).isZeroF = false := by simp [F64.isZeroF, hq]
  unfold F64.rem
  rw [hna, hnb, hia, hzb, hib]
  simp only [Bool.or_self, Bool.or_false, Bool.false_or, Bool.false_eq_true,
    if_false]
  split_ifs with h1 h2 h3
  · intro hcon
    rw [hcon] at hna
    simp [F64.is_nan] at hna
  · simp
  · simp
  · simp

theorem nnRem_isSome (x y : NonNaN) : (nnRem x y).isSome := by
  obtain ⟨q, hq, hdiv⟩ := as_divisor_nonzero_num y
  rw [nnRem, hdiv]
  exact clip_isSome_of_ne_nan (rem_finite_ne_nan x.property hq)

theorem clip_inf_eq :
    (clip_to_finite .inf).map NonNaN.value = some (.num maxFiniteVal) := by
  rfl

theorem clip_negInf_eq :
    (clip_to_finite .negInf).map NonNaN.value
      = some (.num (-maxFiniteVal)) := by
  rfl

theorem infoOk_sizes {h : Heaps} (hi : infoOk h) :
    h.min_heap.length ≤ h.max_heap.length + 1 ∧
      h.max_heap.length ≤ h.min_heap.length + 1 := by
  obtain ⟨mn, mx, info⟩ := h
  cases info <;> simp_all [infoOk] <;> omega

theorem innerScanAt_spec {z : List ℚ} {delta i : ℕ}
    (hin : i + delta < z.length) :
    innerScanAt z delta i
      = some ((jRange z.length delta i).map (specCand z i)) := by
  have hne : z.take (i + 1) ≠ [] := by
    intro hnil
    have hl := congrArg List.length hnil
    rw [List.length_take] at hl
    simp only [List.length_nil, Nat.min_eq_zero_iff] at hl
    omega
  obtain ⟨lh, hall, hinv, hmed⟩ := addAll_new_total hne
  unfold innerScanAt
  rw [hall]
  simp only [Option.some_bind]
  rw [hmed]
  simp only [Option.some_bind]
  exact innerScan_at_eq hin

/-! Claim theorems. -/

/-- Claim C1, counterexample: after pushing 1 then 2, `get_median` returns
1, not the midpoint 3/2 of the two values pushed so far, so the median is
not the sort-based median of the pushed values. -/
theorem c1_counterexample :
    medianAfter [(1 : ℚ), 2] ≠ sortMedianRef [(1 : ℚ), 2] := by
  have h1 : medianAfter [(1 : ℚ), 2] = some 1 := rfl
  have h2 : sortMedianRef [(1 : ℚ), 2] = some ((1 + 2) / 2) := rfl
  rw [h1, h2]
  intro hcon
  have hval := Option.some.inj hcon
  norm_num at hval

/-- Claim C1, amended: after each push into a fresh heap pair, `get_median`
returns the sort-based median of the pushed values with the first pushed
value counted twice (the first push seeds both heaps with it). -/
theorem c1_median_of_pushes (v : ℚ) (rest : List ℚ) :
    medianAfter (v :: rest) = sortMedianRef (v :: v :: rest) :=
  medianAfter_eq_sortRef v rest

/-- Claim C2: at the boundary length `2 * delta` the claim fails: the length
check passes, yet the scan emits no candidate and the final `expect` panics
(the embedded `edm_x` returns `none`).  Below the boundary the documented
`NotEnoughValues` error is returned with both numbers, and strictly above it
the call returns `Ok`. -/
theorem c2_failing_input :
    find_candidate 1 [(1 : ℚ), 2] = none ∧
      find_candidate 1 [(1 : ℚ)]
        = some (.error (.NotEnoughValues 1 1)) ∧
      ∃ bc, find_candidate 1 [(1 : ℚ), 2, 3] = some (.ok bc) := by
  refine ⟨rfl, rfl, specCand [(1 : ℚ), 2, 3] 1 2, ?_⟩
  have hspec := edm_x_eq_spec [(1 : ℚ), 2, 3] 1 (by norm_num)
  have hlist : specAllCands [(1 : ℚ), 2, 3] 1
      = [specCand [(1 : ℚ), 2, 3] 1 2] := rfl
  rw [hlist, rustMaxBC_cons_eq] at hspec
  simp only [find_candidate]
  rw [if_neg (by norm_num), hspec]
  rfl

/-- Claim C3, counterexample: with zero permutations (a detector that
succeeds everywhere), the returned p_value is 0, which is not in the
half-open interval (0, 1]. -/
theorem c3_counterexample :
    ∃ r, permutation_test constDetector [] [(1 : ℚ)] = .ok r ∧
      ¬(0 < r.p_value ∧ r.p_value ≤ 1) := by
  refine ⟨_, permutation_test_ok constDetector [] [(1 : ℚ)] ⟨0, 0⟩ rfl
    (by simp), ?_⟩
  rintro ⟨hc, -⟩
  norm_num [countGreater] at hc

/-- Claim C3, amended: whenever the true run succeeds and every permutation
scan succeeds, the p_value lies in the half-open interval [0, 1): it is
nonnegative (0 is attained) and strictly below 1. -/
theorem c3_p_value_in_unit
    (algorithm : List ℚ → Except ErrorKind BestCandidate)
    (perms : List (List ℚ)) (obs : List ℚ) (bc : BestCandidate)
    (h1 : algorithm obs = .ok bc)
    (h2 : ∀ p ∈ perms, (algorithm p).isOk) :
    ∃ r, permutation_test algorithm perms obs = .ok r ∧
      0 ≤ r.p_value ∧ r.p_value < 1 := by
  refine ⟨_, permutation_test_ok algorithm perms obs bc h1 h2, ?_, ?_⟩
  · positivity
  · have hk : countGreater algorithm bc.statistic perms ≤ perms.length :=
      List.countP_le_length _
    rw [div_lt_one (by positivity)]
    have hkq : ((countGreater algorithm bc.statistic perms : ℕ) : ℚ)
        ≤ ((perms.length : ℕ) : ℚ) := by exact_mod_cast hk
    linarith

theorem c3_p_value_in_unit_witness :
    ∃ r, permutation_test constDetector [[(1 : ℚ)]] [(1 : ℚ)] = .ok r ∧
      0 ≤ r.p_value ∧ r.p_value < 1 :=
  c3_p_value_in_unit constDetector [[(1 : ℚ)]] [(1 : ℚ)] ⟨0, 0⟩ rfl
    (by intro p hp; rfl)

/-- Claim C4: on success, the p_value is the number of permutations whose
statistic strictly exceeds the true statistic (ties and smaller values
contribute 0) divided by permutationCount + 1, and the changepoint index is
the location found on the unpermuted sequence. -/
theorem c4_p_value_formula
    (algorithm : List ℚ → Except ErrorKind BestCandidate)
    (perms : List (List ℚ)) (obs : List ℚ) (bc : BestCandidate)
    (h1 : algorithm obs = .ok bc)
    (h2 : ∀ p ∈ perms, (algorithm p).isOk) :
    permutation_test algorithm perms obs =
      .ok ⟨((countGreater algorithm bc.statistic perms : ℕ) : ℚ)
            / ((perms.length : ℚ) + 1), bc.location⟩ :=
  permutation_test_ok algorithm perms obs bc h1 h2

theorem c4_p_value_formula_witness :
    permutation_test constDetector [[(2 : ℚ), 1]] [(1 : ℚ), 2] =
      .ok ⟨((countGreater constDetector
              (BestCandidate.statistic ⟨0, 0⟩) [[(2 : ℚ), 1]] : ℕ) : ℚ)
            / ((([[(2 : ℚ), 1]] : List (List ℚ)).length : ℚ) + 1),
          BestCandidate.location ⟨0, 0⟩⟩ :=
  c4_p_value_formula constDetector [[(2 : ℚ), 1]] [(1 : ℚ), 2] ⟨0, 0⟩ rfl
    (by intro p hp; rfl)

/-- Claim C5: for `delta ≥ 1` and `n ≥ 2·delta`, the scan scores exactly the
pairs `(i, j)` with `delta ≤ i < n - delta` and `i + delta ≤ j ≤ n - 1`: the
inner scan at boundary `i` emits exactly the candidates `specCand z i j`
over that `j` range (statistic `weight(i,j) * (left_median - right_median)^2`
with the medians of the two heap pairs, location `i`, never `j`), and the
scan result is the maximum over exactly that candidate list. -/
theorem c5_scored_pairs (z : List ℚ) (delta : ℕ) (_h1 : 1 ≤ delta)
    (h2 : 2 * delta ≤ z.length) :
    (∀ i, delta ≤ i → i + delta < z.length →
      innerScanAt z delta i
        = some ((jRange z.length delta i).map (specCand z i)))
    ∧ edm_x z delta = rustMaxBC (specAllCands z delta) :=
  ⟨fun _ _ hin => innerScanAt_spec hin, edm_x_eq_spec z delta h2⟩

theorem c5_scored_pairs_witness :
    (∀ i, 1 ≤ i → i + 1 < ([(1 : ℚ), 2, 3] : List ℚ).length →
      innerScanAt [(1 : ℚ), 2, 3] 1 i
        = some ((jRange ([(1 : ℚ), 2, 3] : List ℚ).length 1 i).map
            (specCand [(1 : ℚ), 2, 3] i)))
    ∧ edm_x [(1 : ℚ), 2, 3] 1
        = rustMaxBC (specAllCands [(1 : ℚ), 2, 3] 1) :=
  c5_scored_pairs [(1 : ℚ), 2, 3] 1 (by decide) (by decide)

/-- Claim C6: the `BestCandidate` order is total (its comparison returns
`eq` exactly on equal records), compares primarily by statistic, ranks the
smaller location greater on equal statistics, and consequently the returned
candidate of a successful scan attains the maximal statistic with the
smallest location among the scored candidates attaining it. -/
theorem c6_total_order_and_tie_break (z : List ℚ) (delta : ℕ)
    (r : BestCandidate) (_h1 : 1 ≤ delta) (h2 : 2 * delta ≤ z.length)
    (h3 : edm_x z delta = some r) :
    (∀ a b : BestCandidate, bcCmp a b = .eq ↔ a = b) ∧
    (∀ a b : BestCandidate, bcCmp a b = (bcCmp b a).swap) ∧
    (∀ a b : BestCandidate, bcCmp a b = .gt ↔
      (b.statistic < a.statistic ∨
        (a.statistic = b.statistic ∧ a.location < b.location))) ∧
    r ∈ specAllCands z delta ∧
    (∀ c ∈ specAllCands z delta, c.statistic ≤ r.statistic) ∧
    (∀ c ∈ specAllCands z delta,
      c.statistic = r.statistic → r.location ≤ c.location) := by
  rw [edm_x_eq_spec z delta h2] at h3
  obtain ⟨hmem, hall⟩ := rustMaxBC_spec h3
  refine ⟨bcCmp_eq_eq_iff, bcCmp_swap, bcCmp_eq_gt_iff, hmem, ?_, ?_⟩
  · intro c hc
    have hng := hall c hc
    have hng2 : ¬(r.statistic < c.statistic ∨
        (c.statistic = r.statistic ∧ c.location < r.location)) := fun hx =>
      hng ((bcCmp_eq_gt_iff c r).mpr hx)
    push_neg at hng2
    exact hng2.1
  · intro c hc hstat
    have hng := hall c hc
    have hng2 : ¬(r.statistic < c.statistic ∨
        (c.statistic = r.statistic ∧ c.location < r.location)) := fun hx =>
      hng ((bcCmp_eq_gt_iff c r).mpr hx)
    push_neg at hng2
    exact hng2.2 hstat

theorem c6_total_order_and_tie_break_witness :
    (∀ a b : BestCandidate, bcCmp a b = .eq ↔ a = b) ∧
    (∀ a b : BestCandidate, bcCmp a b = (bcCmp b a).swap) ∧
    (∀ a b : BestCandidate, bcCmp a b = .gt ↔
      (b.statistic < a.statistic ∨
        (a.statistic = b.statistic ∧ a.location < b.location))) ∧
    specCand [(1 : ℚ), 2, 3] 1 2 ∈ specAllCands [(1 : ℚ), 2, 3] 1 ∧
    (∀ c ∈ specAllCands [(1 : ℚ), 2, 3] 1,
      c.statistic ≤ (specCand [(1 : ℚ), 2, 3] 1 2).statistic) ∧
    (∀ c ∈ specAllCands [(1 : ℚ), 2, 3] 1,
      c.statistic = (specCand [(1 : ℚ), 2, 3] 1 2).statistic →
        (specCand [(1 : ℚ), 2, 3] 1 2).location ≤ c.location) :=
  c6_total_order_and_tie_break [(1 : ℚ), 2, 3] 1
    (specCand [(1 : ℚ), 2, 3] 1 2) (by decide) (by decide)
    (by
      have hspec := edm_x_eq_spec [(1 : ℚ), 2, 3] 1 (by norm_num)
      have hlist : specAllCands [(1 : ℚ), 2, 3] 1
          = [specCand [(1 : ℚ), 2, 3] 1 2] := rfl
      rw [hspec, hlist, rustMaxBC_cons_eq]
      rfl)

/-- Claim C7: `NonNaN::new` returns `None` exactly on NaN and the two
infinities, and every accepted value is returned unchanged by `value()`. -/
theorem c7_new_rejects_nan_and_inf :
    ∀ v : F64,
      ((NonNaN.new v = none) ↔ (v = .nan ∨ v = .inf ∨ v = .negInf)) ∧
      (NonNaN.new v).elim True (fun r => r.value = v) := by
  intro v
  cases v <;>
    simp [NonNaN.new, F64.is_nan, F64.is_infinite, NonNaN.value, Option.elim]

/-- Claim C8: all five arithmetic operations on `NonNaN` are total (no
`expect` fires and the result is again finite): a raw `+Infinity` is clipped
to the largest finite double, a raw `-Infinity` to its negation, and a zero
divisor in division or remainder is replaced by the smallest positive
normal double carrying the sign of the divisor before dividing. -/
theorem c8_arithmetic_closed :
    (∀ x y : NonNaN, (nnAdd x y).isSome) ∧
    (∀ x y : NonNaN, (nnSub x y).isSome) ∧
    (∀ x y : NonNaN, (nnMul x y).isSome) ∧
    (∀ x y : NonNaN, (nnDiv x y).isSome) ∧
    (∀ x y : NonNaN, (nnRem x y).isSome) ∧
    (clip_to_finite .inf).map NonNaN.value = some (.num maxFiniteVal) ∧
    (clip_to_finite .negInf).map NonNaN.value
      = some (.num (-maxFiniteVal)) ∧
    (∀ q : ℚ, as_divisor (.num q)
      = if q = 0 then .num minPositiveVal else .num q) ∧
    as_divisor .negZero = .num (-minPositiveVal) :=
  ⟨nnAdd_isSome, nnSub_isSome, nnMul_isSome, nnDiv_isSome, nnRem_isSome,
    clip_inf_eq, clip_negInf_eq, as_divisor_num_eq, as_divisor_negZero_eq⟩

/-- Claim C9, counterexample: a failing permutation scan aborts the test,
but the returned error is the original detector error itself (here the
inner `NotEnoughValues 7 9`), not a distinct wrapping variant; the error
taxonomy of `errors.rs` has no `PermutationScanFailed` constructor at all. -/
theorem c9_counterexample :
    permutation_test failOnSwapDetector [[(2 : ℚ), 1]] [(1 : ℚ), 2]
      = .error (.NotEnoughValues 7 9) := by
  rfl

/-- Claim C9, amended: if the true run succeeds and some permutation fails,
the whole test returns an error and no result: the error of the first
failing permutation, propagated unchanged. -/
theorem c9_error_propagated_unchanged
    (algorithm : List ℚ → Except ErrorKind BestCandidate)
    (pre post : List (List ℚ)) (p obs : List ℚ) (bc : BestCandidate)
    (e : ErrorKind)
    (h1 : algorithm obs = .ok bc)
    (h2 : ∀ q ∈ pre, (algorithm q).isOk)
    (h3 : algorithm p = .error e) :
    permutation_test algorithm (pre ++ p :: post) obs = .error e :=
  permutation_test_error algorithm pre post p obs bc e h1 h2 h3

theorem c9_error_propagated_unchanged_witness :
    permutation_test failOnSwapDetector ([] ++ [(2 : ℚ), 1] :: [])
        [(1 : ℚ), 2] = .error (.NotEnoughValues 7 9) :=
  c9_error_propagated_unchanged failOnSwapDetector [] [] [(2 : ℚ), 1]
    [(1 : ℚ), 2] ⟨0, 0⟩ (.NotEnoughValues 7 9)
    rfl (by simp) rfl

/-- Claim C10: pushing k ≥ 1 values stores k+1 entries (the first push
seeds both heaps), the heap sizes differ by at most one, every max-heap
element is at most every min-heap element, and `get_median` returns the
sort-based median of the stored multiset, which is the pushed multiset with
the first value counted twice. -/
theorem c10_stored_multiset_invariant (v : ℚ) (rest : List ℚ) :
    ∃ h2, addAll Heaps.new (v :: rest) = some h2 ∧
      h2.min_heap.length + h2.max_heap.length = rest.length + 2 ∧
      h2.min_heap.length ≤ h2.max_heap.length + 1 ∧
      h2.max_heap.length ≤ h2.min_heap.length + 1 ∧
      (∀ x ∈ h2.max_heap, ∀ y ∈ h2.min_heap, x ≤ y) ∧
      List.Perm (h2.min_heap ++ h2.max_heap) (v :: v :: rest) ∧
      h2.get_median = sortMedianRef (v :: v :: rest) := by
  obtain ⟨h2, hall, hinv, hperm⟩ := addAll_new_inv v rest
  have hmed := get_median_inv hinv
  have hlen := hperm.length_eq
  simp only [Heaps.stored, List.length_append, List.length_cons] at hlen
  obtain ⟨hs1, hs2⟩ := infoOk_sizes hinv.2
  refine ⟨h2, hall, by omega, hs1, hs2, hinv.1, ?_, ?_⟩
  · exact List.perm_append_comm.trans hperm
  · rw [hmed]
    exact sortMedianRef_perm hperm

end RustChangepoint
